import Mathlib

/-!
Verification of the core analysis engine of the repository: cycle
classification (`detect-circular-deps.ts`), Tarjan SCC detection, import
resolution, the file scanner, the role classifier (`analyze-ts-role.ts`,
`analyze-project.ts`), and the incremental cache (`cache-manager.ts`).

Every definition below is a shallow embedding of the corresponding
TypeScript function, translated line by line from the source.  File-system
effects (`fs.existsSync`, `fs.statSync`, `fs.readdirSync`, content hashing)
are modelled by explicit finite data passed as arguments.  String
primitives (`includes`, `startsWith`, `endsWith`, `toLowerCase`) are
implemented structurally on character lists so that all definitions
evaluate by kernel reduction.
-/

-- ==================== string primitives ====================

/-- `as` starts with `bs` (character-list version of `startsWith`). -/
def charsHavePrefix : List Char → List Char → Bool
  | _, [] => true
  | [], _ :: _ => false
  | a :: as, b :: bs => a == b && charsHavePrefix as bs

/-- `sub` occurs as a contiguous sublist of `s`. -/
def charsContain : List Char → List Char → Bool
  | s, sub =>
    match s with
    | [] => charsHavePrefix [] sub
    | _ :: rest => charsHavePrefix s sub || charsContain rest sub

/-- JavaScript `String.prototype.includes`. -/
def containsSub (s sub : String) : Bool :=
  charsContain s.data sub.data

/-- JavaScript `String.prototype.startsWith`. -/
def strStarts (s pre : String) : Bool :=
  charsHavePrefix s.data pre.data

/-- JavaScript `String.prototype.endsWith`. -/
def strEnds (s suf : String) : Bool :=
  charsHavePrefix s.data.reverse suf.data.reverse

/-- Model of Node's `path.relative(projectPath, f)` adequate for our use:
strip the `projectPath ++ "/"` prefix when present. -/
def relPath (projectPath f : String) : String :=
  if strStarts f (projectPath ++ "/") then
    String.mk (f.data.drop (projectPath ++ "/").data.length)
  else f

-- ==================== detect-circular-deps.ts : data model ====================

/-- `CircularDependency.severity` in `detect-circular-deps.ts`. -/
inductive Severity where
  | error
  | warning
deriving DecidableEq, Repr

/-- `CircularDependency.type` in `detect-circular-deps.ts`. -/
inductive CycType where
  | module
  | service
  | component
  | general
deriving DecidableEq, Repr

/-- `CircularDependency` record of `detect-circular-deps.ts`. -/
structure CircularDependency where
  cycle : List String
  severity : Severity
  ctype : CycType
deriving DecidableEq, Repr

/-- `CircularDependencyDetector.addCircularDependency`: classify one SCC
(member file paths in `cycle`) into a `CircularDependency`.  The source
computes `hasModule`/`hasService`/`hasComponent` by substring tests on the
member paths and assigns type and severity in that fixed order, defaulting
to `general`/`warning`. -/
def addCircularDependency (projectPath : String) (cycle : List String) :
    CircularDependency :=
  let relativeCycle := cycle.map (relPath projectPath)
  let hasModule := cycle.any (fun f => containsSub f ".module.")
  let hasService := cycle.any (fun f => containsSub f ".service.")
  let hasComponent := cycle.any (fun f => containsSub f ".component.")
  if hasModule then
    { cycle := relativeCycle, severity := .error, ctype := .module }
  else if hasService then
    { cycle := relativeCycle, severity := .error, ctype := .service }
  else if hasComponent then
    { cycle := relativeCycle, severity := .warning, ctype := .component }
  else
    { cycle := relativeCycle, severity := .warning, ctype := .general }

/-- End of `main` in `detect-circular-deps.ts`: `process.exit(1)` when some
cycle has severity `error`, otherwise the process falls through and exits
with code 0. -/
def detectExitCode (cycles : List CircularDependency) : Nat :=
  let hasErrors := cycles.any (fun c => c.severity == Severity.error)
  if hasErrors then 1 else 0

-- ==================== C1 ====================

/-- C1: the severity/type classification of a detected cycle is evaluated in
the fixed precedence module > service > component > general over the cycle's
member files: any member of role module gives type `module` / severity
`error`; else any member of role service gives `service` / `error`; else any
member of role component gives `component` / `warning`; else `general` /
`warning`.  (In the cycle detector a member "has role r" exactly when its
file name contains the `.r.` marker.) -/
theorem cycle_classification_precedence (pp : String) (cycle : List String) :
    (cycle.any (fun f => containsSub f ".module.") = true →
      (addCircularDependency pp cycle).ctype = CycType.module ∧
      (addCircularDependency pp cycle).severity = Severity.error) ∧
    (cycle.any (fun f => containsSub f ".module.") = false →
      cycle.any (fun f => containsSub f ".service.") = true →
      (addCircularDependency pp cycle).ctype = CycType.service ∧
      (addCircularDependency pp cycle).severity = Severity.error) ∧
    (cycle.any (fun f => containsSub f ".module.") = false →
      cycle.any (fun f => containsSub f ".service.") = false →
      cycle.any (fun f => containsSub f ".component.") = true →
      (addCircularDependency pp cycle).ctype = CycType.component ∧
      (addCircularDependency pp cycle).severity = Severity.warning) ∧
    (cycle.any (fun f => containsSub f ".module.") = false →
      cycle.any (fun f => containsSub f ".service.") = false →
      cycle.any (fun f => containsSub f ".component.") = false →
      (addCircularDependency pp cycle).ctype = CycType.general ∧
      (addCircularDependency pp cycle).severity = Severity.warning) := by
  refine ⟨fun h1 => ?_, fun h1 h2 => ?_, fun h1 h2 h3 => ?_, fun h1 h2 h3 => ?_⟩
  · simp only [addCircularDependency]
    rw [h1]
    exact ⟨rfl, rfl⟩
  · simp only [addCircularDependency]
    rw [h1, h2]
    exact ⟨rfl, rfl⟩
  · simp only [addCircularDependency]
    rw [h1, h2, h3]
    exact ⟨rfl, rfl⟩
  · simp only [addCircularDependency]
    rw [h1, h2, h3]
    exact ⟨rfl, rfl⟩

/-- Witness for C1: a concrete cycle with one module-role member and two
component-role members is classified `module` / `error`. -/
theorem cycle_classification_precedence_witness :
    (addCircularDependency "p" ["p/a.module.ts", "p/b.component.ts", "p/c.component.ts"]).ctype
        = CycType.module ∧
    (addCircularDependency "p" ["p/a.module.ts", "p/b.component.ts", "p/c.component.ts"]).severity
        = Severity.error :=
  (cycle_classification_precedence "p"
      ["p/a.module.ts", "p/b.component.ts", "p/c.component.ts"]).1 (by decide)

-- ==================== C3 ====================

/-- C3: the cycle-detection command exits with code 0 exactly when no
detected cycle has severity `error`, and with the non-zero code 1 when at
least one does. -/
theorem detect_exit_code_spec (cycles : List CircularDependency) :
    (detectExitCode cycles = 0 ↔ ∀ c ∈ cycles, c.severity ≠ Severity.error) ∧
    ((∃ c ∈ cycles, c.severity = Severity.error) → detectExitCode cycles ≠ 0) := by
  have key : cycles.any (fun c => c.severity == Severity.error) = true ↔
      ∃ c ∈ cycles, c.severity = Severity.error := by
    simp [List.any_eq_true]
  cases hb : cycles.any (fun c => c.severity == Severity.error) with
  | true =>
    obtain ⟨c, hc, hsev⟩ := key.mp hb
    refine ⟨⟨fun h0 => ?_, fun hall => ?_⟩, fun _ => ?_⟩
    · exact absurd h0 (by simp [detectExitCode, hb])
    · exact absurd hsev (hall c hc)
    · simp [detectExitCode, hb]
  | false =>
    refine ⟨⟨fun _ c hc hsev => ?_, fun _ => ?_⟩, fun hex => ?_⟩
    · have hx := key.mpr ⟨c, hc, hsev⟩
      rw [hb] at hx
      exact Bool.false_ne_true hx
    · simp [detectExitCode, hb]
    · have hx := key.mpr hex
      rw [hb] at hx
      exact absurd hx Bool.false_ne_true

/-- Witness for C3: with one error-severity cycle the exit code is nonzero;
with only warning cycles it is 0. -/
theorem detect_exit_code_spec_witness :
    detectExitCode [⟨["a", "b"], Severity.error, CycType.module⟩] ≠ 0 ∧
    detectExitCode [⟨["a", "b"], Severity.warning, CycType.component⟩] = 0 := by
  constructor
  · exact (detect_exit_code_spec _).2
      ⟨⟨["a", "b"], Severity.error, CycType.module⟩, by simp, rfl⟩
  · exact (detect_exit_code_spec _).1.mpr (by decide)

-- ==================== cache-manager.ts ====================

/-- `CachedFileAnalysis` of `cache-manager.ts`: one cache entry holding the
file path, its content hash, its `mtimeMs` timestamp and the cached
analysis record (abstracted over the analysis type `α`). -/
structure CachedFileAnalysis (α : Type) where
  path : String
  hash : String
  lastModified : Int
  analysis : α
deriving DecidableEq, Repr

/-- `AnalysisCache` of `cache-manager.ts`: a versioned map from file path to
cache entry (the `Map` is modelled as an association list with
cons-shadowing, matching `Map.set`/`Map.get`). -/
structure AnalysisCache (α : Type) where
  version : String
  projectPath : String
  files : List (String × CachedFileAnalysis α)
deriving DecidableEq, Repr

/-- The engine version constant `private version = '1.0.0'` of
`CacheManager`. -/
def cacheManagerVersion : String := "1.0.0"

/-- Observable file-system state used by `CacheManager`: `fs.statSync`
(`none` models a thrown error) and the MD5 content hash of a readable file
(`none` models an unreadable file). -/
structure CacheFs where
  statMtime : String → Option Int
  contentHash : String → Option String

/-- `CacheManager.calculateFileHash`: hash the file content, returning the
empty string when reading throws (the `catch` branch). -/
def calculateFileHash (fs : CacheFs) (filePath : String) : String :=
  (fs.contentHash filePath).getD ""

/-- `CacheManager.hasFileChanged`: `true` when there is no loaded cache, no
entry for the path, or `statSync` throws; otherwise
`stat.mtimeMs > cached.lastModified || currentHash !== cached.hash`. -/
def hasFileChanged (fs : CacheFs) (cache : Option (AnalysisCache α))
    (filePath : String) : Bool :=
  match cache with
  | none => true
  | some c =>
    match c.files.lookup filePath with
    | none => true
    | some cached =>
      match fs.statMtime filePath with
      | none => true
      | some mtimeMs =>
        decide (mtimeMs > cached.lastModified) ||
          decide (calculateFileHash fs filePath ≠ cached.hash)

/-- `CacheManager.getCachedAnalysis`: return the cached analysis only when a
cache is loaded, an entry exists for the path, and `hasFileChanged` is
false; otherwise `null`. -/
def getCachedAnalysis (fs : CacheFs) (cache : Option (AnalysisCache α))
    (filePath : String) : Option α :=
  match cache with
  | none => none
  | some c =>
    match c.files.lookup filePath with
    | none => none
    | some cached =>
      if hasFileChanged fs cache filePath then none
      else some cached.analysis

/-- Raw persisted cache state seen by `CacheManager.load`: `none` models a
missing cache file, `some none` a stored file whose content fails to parse
(`JSON.parse` throws), `some (some c)` a successfully parsed cache. -/
def loadCache (stored : Option (Option (AnalysisCache α))) :
    Bool × Option (AnalysisCache α) :=
  match stored with
  | none => (false, none)
  | some none => (false, none)
  | some (some parsed) =>
    if parsed.version ≠ cacheManagerVersion then (false, none)
    else (true, some parsed)

-- ==================== C4 ====================

/-- C4: `hasFileChanged` is `false` (the file is considered unchanged) only
when the current modification time is not newer than the cached one AND the
current content hash equals the cached hash; either mismatch alone makes it
`true`; and `getCachedAnalysis` returns the cached record exactly when an
entry exists and the unchanged check holds, otherwise `null`. -/
theorem cache_unchanged_check_spec (fs : CacheFs) (cache : Option (AnalysisCache α))
    (filePath : String) :
    (hasFileChanged fs cache filePath = false →
      ∃ c cached mtimeMs, cache = some c ∧
        c.files.lookup filePath = some cached ∧
        fs.statMtime filePath = some mtimeMs ∧
        mtimeMs ≤ cached.lastModified ∧
        calculateFileHash fs filePath = cached.hash) ∧
    (∀ c cached mtimeMs, cache = some c →
      c.files.lookup filePath = some cached →
      fs.statMtime filePath = some mtimeMs →
      (mtimeMs > cached.lastModified ∨ calculateFileHash fs filePath ≠ cached.hash) →
      hasFileChanged fs cache filePath = true) ∧
    (∀ a, getCachedAnalysis fs cache filePath = some a →
      hasFileChanged fs cache filePath = false ∧
      ∃ c cached, cache = some c ∧ c.files.lookup filePath = some cached ∧
        a = cached.analysis) ∧
    (hasFileChanged fs cache filePath = true →
      getCachedAnalysis fs cache filePath = none) := by
  refine ⟨?_, ?_, ?_, ?_⟩
  · intro hunch
    match hc : cache with
    | none => simp [hasFileChanged] at hunch
    | some c =>
      match hl : c.files.lookup filePath with
      | none => simp [hasFileChanged, hl] at hunch
      | some cached =>
        match hm : fs.statMtime filePath with
        | none => simp [hasFileChanged, hl, hm] at hunch
        | some mtimeMs =>
          simp [hasFileChanged, hl, hm] at hunch
          refine ⟨c, cached, mtimeMs, rfl, ?_, ?_, ?_, hunch.2⟩
          · exact hl
          · rfl
          · omega
  · intro c cached mtimeMs hc hl hm hmis
    subst hc
    rcases hmis with hmt | hhash
    · simp [hasFileChanged, hl, hm]
      exact Or.inl hmt
    · simp [hasFileChanged, hl, hm]
      exact Or.inr hhash
  · intro a hget
    match hc : cache with
    | none => simp [getCachedAnalysis] at hget
    | some c =>
      match hl : c.files.lookup filePath with
      | none => simp [getCachedAnalysis, hl] at hget
      | some cached =>
        simp only [getCachedAnalysis, hl] at hget
        by_cases hch : hasFileChanged fs (some c) filePath
        · simp [hch] at hget
        · simp [hch] at hget
          exact ⟨by simpa using hch, c, cached, rfl, hl, hget.symm⟩
  · intro hch
    match hc : cache with
    | none => simp [getCachedAnalysis]
    | some c =>
      match hl : c.files.lookup filePath with
      | none => simp [getCachedAnalysis, hl]
      | some cached => simp [getCachedAnalysis, hl, hch]

/-- Witness for C4 on concrete data: a cached file whose hash changed is a
cache miss even though its timestamp did not advance. -/
theorem cache_unchanged_check_spec_witness :
    hasFileChanged
      ⟨fun _ => some 5, fun _ => some "h2"⟩
      (some (⟨"1.0.0", "p", [("f.ts", ⟨"f.ts", "h1", 5, 0⟩)]⟩ : AnalysisCache Nat))
      "f.ts" = true :=
  (cache_unchanged_check_spec _ _ _).2.1 _ ⟨"f.ts", "h1", 5, 0⟩ 5 rfl (by decide) rfl
    (Or.inr (by decide))

-- ==================== C5 ====================

/-- C5: loading a persisted cache whose version tag differs from the engine
version, or whose stored content cannot be parsed, leaves the engine with an
empty (absent) cache and reports failure rather than throwing, and every
subsequent cache lookup in that run is a miss. -/
theorem cache_load_invalidation_spec (stored : Option (Option (AnalysisCache α))) :
    (∀ parsed, stored = some (some parsed) → parsed.version ≠ cacheManagerVersion →
      loadCache stored = (false, none)) ∧
    (stored = some none → loadCache stored = (false, none)) ∧
    ((loadCache stored).2 = none →
      ∀ fs filePath, getCachedAnalysis fs (loadCache stored).2 filePath = none) := by
  refine ⟨?_, ?_, ?_⟩
  · intro parsed hs hv
    subst hs
    simp [loadCache, hv]
  · intro hs
    subst hs
    rfl
  · intro hempty fs filePath
    rw [hempty]
    rfl

/-- Witness for C5: a cache stored under version "0.9.0" is discarded
entirely and a concrete lookup afterwards misses. -/
theorem cache_load_invalidation_spec_witness :
    loadCache (some (some (⟨"0.9.0", "p", [("f.ts", ⟨"f.ts", "h", 1, 0⟩)]⟩ :
        AnalysisCache Nat))) = (false, none) ∧
    getCachedAnalysis ⟨fun _ => some 1, fun _ => some "h"⟩
      (loadCache (some (some (⟨"0.9.0", "p", [("f.ts", ⟨"f.ts", "h", 1, 0⟩)]⟩ :
        AnalysisCache Nat)))).2 "f.ts" = none := by
  have h1 := (cache_load_invalidation_spec
      (some (some (⟨"0.9.0", "p", [("f.ts", ⟨"f.ts", "h", 1, 0⟩)]⟩ :
        AnalysisCache Nat)))).1 _ rfl (by decide)
  refine ⟨h1, ?_⟩
  exact (cache_load_invalidation_spec _).2.2 (by rw [h1]) _ _

-- ==================== import resolution (detect-circular-deps.ts) ====================

/-- Split a path string into its `/`-separated segments (dropping empty
segments), structurally on the character list. -/
def splitSlash : List Char → List (List Char)
  | [] => [[]]
  | c :: rest =>
    let r := splitSlash rest
    if c = '/' then [] :: r
    else
      match r with
      | [] => [[c]]
      | h :: t => (c :: h) :: t

/-- Path segments of a string, empty segments removed. -/
def pathSegs (p : String) : List String :=
  ((splitSlash p.data).filter (fun s => ¬ s.isEmpty)).map String.mk

/-- Apply relative-path segments to a base segment list, resolving `.` and
`..` (model of Node's `path.resolve(dir, source)` for a relative
`source`). -/
def applySegs : List String → List String → List String
  | acc, [] => acc
  | acc, "." :: rest => applySegs acc rest
  | acc, ".." :: rest => applySegs acc.dropLast rest
  | acc, s :: rest => applySegs (acc ++ [s]) rest

/-- Join segments back into an absolute path. -/
def joinSegs : List String → String
  | [] => "/"
  | s :: rest => "/" ++ s ++ joinSegsAux rest
where
  joinSegsAux : List String → String
  | [] => ""
  | s :: rest => "/" ++ s ++ joinSegsAux rest

/-- Model of `path.resolve(dir, source)` for an absolute `dir` and relative
`source`. -/
def resolvePath (dir source : String) : String :=
  joinSegs (applySegs (pathSegs dir) (pathSegs source))

/-- Model of `path.join(p, "index.ts")`. -/
def joinIndexTs (p : String) : String := p ++ "/index.ts"

/-- The disk contents seen through `fs.existsSync`: the set of paths (files
and directories) that exist. -/
structure DiskFs where
  existing : List String
deriving Repr

/-- `fs.existsSync`. -/
def existsSync (fs : DiskFs) (p : String) : Bool := fs.existing.contains p

/-- The body of the `ImportDeclaration` case of
`CircularDependencyDetector.extractImports`: classify and resolve one import
source found in the file at `filePath`.  Faithful to the source: only a
source starting with `.` is considered; `path.resolve` is applied; if the
resolved path does not already end in `.ts`, first `resolvedPath + '.ts'` is
tried, then `resolvedPath/index.ts`; finally the import is recorded only if
the chosen path exists. -/
def resolveImport (fs : DiskFs) (filePath source : String) : Option String :=
  if strStarts source "." then
    let dir := dirname filePath
    let resolvedPath := resolvePath dir source
    let resolvedPath :=
      if ¬ strEnds resolvedPath ".ts" then
        if existsSync fs (resolvedPath ++ ".ts") then resolvedPath ++ ".ts"
        else if existsSync fs (joinIndexTs resolvedPath) then joinIndexTs resolvedPath
        else resolvedPath
      else resolvedPath
    if existsSync fs resolvedPath then some resolvedPath else none
  else none
where
  /-- Model of `path.dirname`. -/
  dirname (p : String) : String := joinSegs (pathSegs p).dropLast

/-- The resolution procedure exactly as the specification words it
(spec §4.2 / claim C6): try, in order, (a) the literal path, (b) the path
with the source extension appended, (c) the path as a directory containing
`index.ts`; the first candidate that exists on disk wins.  This definition
follows the spec text, not the source, and is used only to compare the two. -/
def specClaimResolveImport (fs : DiskFs) (filePath source : String) : Option String :=
  if strStarts source "." then
    let p := resolvePath (resolveImport.dirname filePath) source
    if existsSync fs p then some p
    else if existsSync fs (p ++ ".ts") then some (p ++ ".ts")
    else if existsSync fs (joinIndexTs p) then some (joinIndexTs p)
    else none
  else none

-- ==================== C6 ====================

/-- Counterexample to C6: with both the literal path `/r/x` (say a
directory) and `/r/x.ts` on disk, the claimed order resolves `./x` imported
from `/r/a.ts` to the literal `/r/x`, but the code appends the extension
first and resolves to `/r/x.ts`.  The literal path is only tried last. -/
theorem resolve_import_order_counterexample :
    existsSync ⟨["/r/x", "/r/x.ts", "/r/a.ts"]⟩ "/r/x" = true ∧
    specClaimResolveImport ⟨["/r/x", "/r/x.ts", "/r/a.ts"]⟩ "/r/a.ts" "./x"
      = some "/r/x" ∧
    resolveImport ⟨["/r/x", "/r/x.ts", "/r/a.ts"]⟩ "/r/a.ts" "./x"
      = some "/r/x.ts" ∧
    ("/r/x" : String) ≠ "/r/x.ts" := by
  refine ⟨rfl, ?_, ?_, by decide⟩ <;> decide

/-- C6 (amended): an import source is local only if it begins with a
relative-path marker; when the resolved path already ends in `.ts` only the
literal path is consulted; otherwise the candidates are tried in the order
extension-appended, then directory index file, then the literal path, and
the first that exists on disk wins; if the chosen candidate does not exist
the import is unresolved and produces nothing. -/
theorem resolve_import_amended_spec (fs : DiskFs) (filePath source : String) :
    (strStarts source "." = false → resolveImport fs filePath source = none) ∧
    (∀ p, p = resolvePath (resolveImport.dirname filePath) source →
      strStarts source "." = true →
      ((strEnds p ".ts" = true →
        resolveImport fs filePath source =
          (if existsSync fs p then some p else none)) ∧
       (strEnds p ".ts" = false →
        resolveImport fs filePath source =
          (if existsSync fs (p ++ ".ts") then some (p ++ ".ts")
           else if existsSync fs (joinIndexTs p) then some (joinIndexTs p)
           else if existsSync fs p then some p else none)))) ∧
    (∀ q, resolveImport fs filePath source = some q → existsSync fs q = true) := by
  refine ⟨?_, ?_, ?_⟩
  · intro hns
    simp [resolveImport, hns]
  · intro p hp hs
    subst hp
    constructor
    · intro hts
      simp [resolveImport, hs, hts]
    · intro hts
      by_cases h1 : existsSync fs (resolvePath (resolveImport.dirname filePath) source ++ ".ts")
      · simp [resolveImport, hs, hts, h1]
      · by_cases h2 : existsSync fs
            (joinIndexTs (resolvePath (resolveImport.dirname filePath) source))
        · simp [resolveImport, hs, hts, h1, h2]
        · simp [resolveImport, hs, hts, h1, h2]
  · intro q hq
    by_cases hs : strStarts source "."
    · simp only [resolveImport, hs, if_true] at hq
      by_cases hts : strEnds (resolvePath (resolveImport.dirname filePath) source) ".ts"
      · simp [hts] at hq
        by_cases he : existsSync fs (resolvePath (resolveImport.dirname filePath) source)
        · simp [he] at hq
          rw [← hq]
          exact he
        · simp [he] at hq
      · by_cases h1 : existsSync fs
            (resolvePath (resolveImport.dirname filePath) source ++ ".ts")
        · simp [hts, h1] at hq
          rw [← hq]
          exact h1
        · by_cases h2 : existsSync fs
              (joinIndexTs (resolvePath (resolveImport.dirname filePath) source))
          · simp [hts, h1, h2] at hq
            rw [← hq]
            exact h2
          · by_cases he : existsSync fs (resolvePath (resolveImport.dirname filePath) source)
            · simp [hts, h1, h2, he] at hq
              rw [← hq]
              exact he
            · simp [hts, h1, h2, he] at hq
    · simp [resolveImport, hs] at hq

/-- Witness for C6 (amended): resolving `./b` from `/r/a.ts` when only
`/r/b.ts` exists yields `/r/b.ts`; a bare specifier is not local. -/
theorem resolve_import_amended_spec_witness :
    resolveImport ⟨["/r/a.ts", "/r/b.ts"]⟩ "/r/a.ts" "./b" = some "/r/b.ts" ∧
    resolveImport ⟨["/r/a.ts", "/r/b.ts"]⟩ "/r/a.ts" "rxjs" = none := by
  constructor
  · have h := ((resolve_import_amended_spec ⟨["/r/a.ts", "/r/b.ts"]⟩ "/r/a.ts" "./b").2.1
      (resolvePath (resolveImport.dirname "/r/a.ts") "./b") rfl (by decide)).2 (by decide)
    rw [h]
    decide
  · exact (resolve_import_amended_spec ⟨["/r/a.ts", "/r/b.ts"]⟩ "/r/a.ts" "rxjs").1 (by decide)

-- ==================== file scanners ====================

/-- A directory tree as seen through `fs.readdirSync` / `fs.statSync`: a
file, or a directory with a name, a readability flag (`false` models
`readdirSync` throwing for it), and its entries. -/
inductive FsEntry where
  | file (name : String)
  | dir (name : String) (readable : Bool) (entries : List FsEntry)
deriving Repr

/-- The `traverse` loop shared by `ProjectAnalyzer.getAllTypeScriptFiles`
(`analyze-project.ts`, exclusions `node_modules`, `dist`, `coverage`) and
`CircularDependencyDetector.getAllTypeScriptFiles`
(`detect-circular-deps.ts`, exclusions `node_modules`, `dist`), the two
differing only in the exclusion list `excl`.  Returns the collected file
paths and the warnings recorded for unreadable directories. -/
def tsScan (excl : List String) (currentPath : String) :
    List FsEntry → List String × List String
  | [] => ([], [])
  | FsEntry.file name :: rest =>
    let r := tsScan excl currentPath rest
    if strEnds name ".ts" && ! strEnds name ".spec.ts" then
      ((currentPath ++ "/" ++ name) :: r.1, r.2)
    else r
  | FsEntry.dir name readable entries :: rest =>
    let r := tsScan excl currentPath rest
    if ! strStarts name "." && ! excl.contains name then
      if readable then
        let sub := tsScan excl (currentPath ++ "/" ++ name) entries
        (sub.1 ++ r.1, sub.2 ++ r.2)
      else (r.1, (currentPath ++ "/" ++ name) :: r.2)
    else r

/-- Exclusion list of `ProjectAnalyzer.getAllTypeScriptFiles`. -/
def projectExclusions : List String := ["node_modules", "dist", "coverage"]

/-- Exclusion list of `CircularDependencyDetector.getAllTypeScriptFiles`. -/
def detectorExclusions : List String := ["node_modules", "dist"]

/-- `ProjectAnalyzer.getAllTypeScriptFiles` run on a root directory whose
readability and entries are given explicitly. -/
def projectGetAllTsFiles (rootPath : String) (rootReadable : Bool)
    (entries : List FsEntry) : List String × List String :=
  if rootReadable then tsScan projectExclusions rootPath entries
  else ([], [rootPath])

/-- `CircularDependencyDetector.getAllTypeScriptFiles` run on a root
directory whose readability and entries are given explicitly. -/
def detectorGetAllTsFiles (rootPath : String) (rootReadable : Bool)
    (entries : List FsEntry) : List String × List String :=
  if rootReadable then tsScan detectorExclusions rootPath entries
  else ([], [rootPath])

/-- The specification-side selection predicate of claim C8: `q` (a path
relative to the scanned directory) names a file with the source extension,
not test/spec-suffixed, whose ancestor directories are all readable, not
hidden and not in the exclusion list. -/
inductive ScanSel (excl : List String) : List FsEntry → String → Prop where
  | file_here {items : List FsEntry} {name : String} :
      FsEntry.file name ∈ items →
      strEnds name ".ts" = true → strEnds name ".spec.ts" = false →
      ScanSel excl items name
  | in_subdir {items : List FsEntry} {d : String} {sub : List FsEntry} {p : String} :
      FsEntry.dir d true sub ∈ items →
      strStarts d "." = false → excl.contains d = false →
      ScanSel excl sub p →
      ScanSel excl items (d ++ "/" ++ p)

/-- The specification-side warning predicate: `q` names an unreadable,
non-hidden, non-excluded directory reached through readable, non-hidden,
non-excluded ancestors. -/
inductive ScanWarn (excl : List String) : List FsEntry → String → Prop where
  | dir_unreadable {items : List FsEntry} {d : String} {sub : List FsEntry} :
      FsEntry.dir d false sub ∈ items →
      strStarts d "." = false → excl.contains d = false →
      ScanWarn excl items d
  | in_subdir {items : List FsEntry} {d : String} {sub : List FsEntry} {p : String} :
      FsEntry.dir d true sub ∈ items →
      strStarts d "." = false → excl.contains d = false →
      ScanWarn excl sub p →
      ScanWarn excl items (d ++ "/" ++ p)

/-- String append is associative. -/
theorem strAppendAssoc (a b c : String) : a ++ b ++ c = a ++ (b ++ c) := by
  cases a with
  | mk da =>
    cases b with
    | mk db =>
      cases c with
      | mk dc =>
        show String.mk ((da ++ db) ++ dc) = String.mk (da ++ (db ++ dc))
        rw [List.append_assoc]

/-- A selection derivation over the tail of an entry list also holds over
the whole list. -/
theorem scanSel_tail {excl : List String} {e : FsEntry} {items : List FsEntry}
    {q : String} (h : ScanSel excl items q) : ScanSel excl (e :: items) q := by
  cases h with
  | file_here hm h1 h2 => exact ScanSel.file_here (List.mem_cons_of_mem _ hm) h1 h2
  | in_subdir hm h1 h2 hsub => exact ScanSel.in_subdir (List.mem_cons_of_mem _ hm) h1 h2 hsub

/-- A warning derivation over the tail of an entry list also holds over the
whole list. -/
theorem scanWarn_tail {excl : List String} {e : FsEntry} {items : List FsEntry}
    {q : String} (h : ScanWarn excl items q) : ScanWarn excl (e :: items) q := by
  cases h with
  | dir_unreadable hm h1 h2 => exact ScanWarn.dir_unreadable (List.mem_cons_of_mem _ hm) h1 h2
  | in_subdir hm h1 h2 hsub => exact ScanWarn.in_subdir (List.mem_cons_of_mem _ hm) h1 h2 hsub

/-- Nested path concatenation regrouping. -/
theorem pathNest (cur d q : String) :
    cur ++ "/" ++ d ++ "/" ++ q = cur ++ "/" ++ (d ++ "/" ++ q) := by
  have h2 := strAppendAssoc ((cur ++ "/") ++ d) "/" q
  have h1 := strAppendAssoc (cur ++ "/") d ("/" ++ q)
  have h3 := strAppendAssoc d "/" q
  show (((cur ++ "/") ++ d) ++ "/") ++ q = (cur ++ "/") ++ ((d ++ "/") ++ q)
  rw [h2, h1, ← h3]

/-- Soundness of the scanner: every collected path comes from a selected
file, and every collected warning from an unreadable directory reached
through allowed ancestors. -/
theorem tsScan_sound (excl : List String) :
    ∀ (cur : String) (items : List FsEntry) (p : String),
      (p ∈ (tsScan excl cur items).1 →
        ∃ q, ScanSel excl items q ∧ p = cur ++ "/" ++ q) ∧
      (p ∈ (tsScan excl cur items).2 →
        ∃ q, ScanWarn excl items q ∧ p = cur ++ "/" ++ q) := by
  intro cur items
  induction cur, items using tsScan.induct excl with
  | case1 cur => intro p; constructor <;> (intro h; simp [tsScan] at h)
  | case2 cur name rest hgood ih =>
    intro p
    have hgood' := hgood
    simp only [Bool.and_eq_true, Bool.not_eq_true'] at hgood'
    constructor
    · intro h
      simp only [tsScan, hgood, if_true] at h
      rcases List.mem_cons.mp h with heq | htail
      · exact ⟨name, ScanSel.file_here (List.mem_cons_self _ _) hgood'.1 hgood'.2, heq⟩
      · obtain ⟨q, hsel, hq⟩ := ((ih p).1) htail
        exact ⟨q, scanSel_tail hsel, hq⟩
    · intro h
      simp only [tsScan, hgood, if_true] at h
      obtain ⟨q, hw, hq⟩ := ((ih p).2) h
      exact ⟨q, scanWarn_tail hw, hq⟩
  | case3 cur name rest hbad ih =>
    intro p
    constructor
    · intro h
      simp only [tsScan, hbad, if_neg, if_false] at h
      obtain ⟨q, hsel, hq⟩ := ((ih p).1) h
      exact ⟨q, scanSel_tail hsel, hq⟩
    · intro h
      simp only [tsScan, hbad, if_neg, if_false] at h
      obtain ⟨q, hw, hq⟩ := ((ih p).2) h
      exact ⟨q, scanWarn_tail hw, hq⟩
  | case4 cur name entries rest hallow ihrest ihsub =>
    intro p
    have hallow' := hallow
    simp only [Bool.and_eq_true, Bool.not_eq_true'] at hallow'
    constructor
    · intro h
      simp only [tsScan, hallow, if_true] at h
      rcases List.mem_append.mp h with hsub | htail
      · obtain ⟨q, hsel, hq⟩ := ((ihsub p).1) hsub
        refine ⟨name ++ "/" ++ q,
          ScanSel.in_subdir (List.mem_cons_self _ _) hallow'.1 hallow'.2 hsel, ?_⟩
        rw [hq, pathNest]
      · obtain ⟨q, hsel, hq⟩ := ((ihrest p).1) htail
        exact ⟨q, scanSel_tail hsel, hq⟩
    · intro h
      simp only [tsScan, hallow, if_true] at h
      rcases List.mem_append.mp h with hsub | htail
      · obtain ⟨q, hw, hq⟩ := ((ihsub p).2) hsub
        refine ⟨name ++ "/" ++ q,
          ScanWarn.in_subdir (List.mem_cons_self _ _) hallow'.1 hallow'.2 hw, ?_⟩
        rw [hq, pathNest]
      · obtain ⟨q, hw, hq⟩ := ((ihrest p).2) htail
        exact ⟨q, scanWarn_tail hw, hq⟩
  | case5 cur name readable entries rest hallow hnr ih =>
    intro p
    have hallow' := hallow
    simp only [Bool.and_eq_true, Bool.not_eq_true'] at hallow'
    have hrf : readable = false := Bool.not_eq_true readable ▸ eq_false_of_ne_true hnr
    subst hrf
    constructor
    · intro h
      simp only [tsScan, hallow, if_true] at h
      obtain ⟨q, hsel, hq⟩ := ((ih p).1) h
      exact ⟨q, scanSel_tail hsel, hq⟩
    · intro h
      simp only [tsScan, hallow, if_true] at h
      rcases List.mem_cons.mp h with heq | htail
      · exact ⟨name,
          ScanWarn.dir_unreadable (List.mem_cons_self _ _) hallow'.1 hallow'.2, heq⟩
      · obtain ⟨q, hw, hq⟩ := ((ih p).2) htail
        exact ⟨q, scanWarn_tail hw, hq⟩
  | case6 cur name readable entries rest hdis ih =>
    intro p
    constructor
    · intro h
      simp only [tsScan, hdis, if_neg, if_false] at h
      obtain ⟨q, hsel, hq⟩ := ((ih p).1) h
      exact ⟨q, scanSel_tail hsel, hq⟩
    · intro h
      simp only [tsScan, hdis, if_neg, if_false] at h
      obtain ⟨q, hw, hq⟩ := ((ih p).2) h
      exact ⟨q, scanWarn_tail hw, hq⟩

/-- Lifting results of a sub-scan of a member directory into the scan of
the whole entry list (files component). -/
theorem tsScan_lift_dir_file {excl : List String} {d : String} {sub items : List FsEntry}
    (hm : FsEntry.dir d true sub ∈ items)
    (hd : strStarts d "." = false) (hx : excl.contains d = false) :
    ∀ cur p, p ∈ (tsScan excl (cur ++ "/" ++ d) sub).1 →
      p ∈ (tsScan excl cur items).1 := by
  induction items with
  | nil => cases hm
  | cons e rest ih =>
    intro cur p hp
    rcases List.mem_cons.mp hm with heq | htail
    · subst heq
      have hcond : (! strStarts d "." && ! excl.contains d) = true := by
        rw [hd, hx]; rfl
      simp only [tsScan, hcond, if_true]
      exact List.mem_append_left _ hp
    · have hrest := ih htail cur p hp
      cases e with
      | file name =>
        by_cases hgood : (strEnds name ".ts" && ! strEnds name ".spec.ts") = true
        · simp only [tsScan, hgood, if_true]
          exact List.mem_cons_of_mem _ hrest
        · simp only [tsScan, hgood, if_false]
          exact hrest
      | dir name readable entries =>
        by_cases hallow : (! strStarts name "." && ! excl.contains name) = true
        · cases readable with
          | true =>
            simp only [tsScan, hallow, if_true]
            exact List.mem_append_right _ hrest
          | false =>
            simp only [tsScan, hallow, if_true]
            exact hrest
        · simp only [tsScan, hallow, if_false]
          exact hrest

/-- Lifting results of a sub-scan of a member directory into the scan of
the whole entry list (warnings component). -/
theorem tsScan_lift_dir_warn {excl : List String} {d : String} {sub items : List FsEntry}
    (hm : FsEntry.dir d true sub ∈ items)
    (hd : strStarts d "." = false) (hx : excl.contains d = false) :
    ∀ cur p, p ∈ (tsScan excl (cur ++ "/" ++ d) sub).2 →
      p ∈ (tsScan excl cur items).2 := by
  induction items with
  | nil => cases hm
  | cons e rest ih =>
    intro cur p hp
    rcases List.mem_cons.mp hm with heq | htail
    · subst heq
      have hcond : (! strStarts d "." && ! excl.contains d) = true := by
        rw [hd, hx]; rfl
      simp only [tsScan, hcond, if_true]
      exact List.mem_append_left _ hp
    · have hrest := ih htail cur p hp
      cases e with
      | file name =>
        by_cases hgood : (strEnds name ".ts" && ! strEnds name ".spec.ts") = true
        · simp only [tsScan, hgood, if_true]
          exact hrest
        · simp only [tsScan, hgood, if_false]
          exact hrest
      | dir name readable entries =>
        by_cases hallow : (! strStarts name "." && ! excl.contains name) = true
        · cases readable with
          | true =>
            simp only [tsScan, hallow, if_true]
            exact List.mem_append_right _ hrest
          | false =>
            simp only [tsScan, hallow, if_true]
            exact List.mem_cons_of_mem _ hrest
        · simp only [tsScan, hallow, if_false]
          exact hrest

/-- A matching file member of the entry list is collected by the scan. -/
theorem tsScan_mem_file {excl : List String} {name : String} {items : List FsEntry}
    (hm : FsEntry.file name ∈ items)
    (h1 : strEnds name ".ts" = true) (h2 : strEnds name ".spec.ts" = false) :
    ∀ cur, (cur ++ "/" ++ name) ∈ (tsScan excl cur items).1 := by
  induction items with
  | nil => cases hm
  | cons e rest ih =>
    intro cur
    rcases List.mem_cons.mp hm with heq | htail
    · subst heq
      have hgood : (strEnds name ".ts" && ! strEnds name ".spec.ts") = true := by
        rw [h1, h2]; rfl
      simp only [tsScan, hgood, if_true]
      exact List.mem_cons_self _ _
    · have hrest := ih htail cur
      cases e with
      | file n =>
        by_cases hgood : (strEnds n ".ts" && ! strEnds n ".spec.ts") = true
        · simp only [tsScan, hgood, if_true]
          exact List.mem_cons_of_mem _ hrest
        · simp only [tsScan, hgood, if_false]
          exact hrest
      | dir n readable entries =>
        by_cases hallow : (! strStarts n "." && ! excl.contains n) = true
        · cases readable with
          | true =>
            simp only [tsScan, hallow, if_true]
            exact List.mem_append_right _ hrest
          | false =>
            simp only [tsScan, hallow, if_true]
            exact hrest
        · simp only [tsScan, hallow, if_false]
          exact hrest

/-- An unreadable allowed directory member contributes its path to the
warnings of the scan. -/
theorem tsScan_mem_warn {excl : List String} {d : String} {sub : List FsEntry}
    {items : List FsEntry}
    (hm : FsEntry.dir d false sub ∈ items)
    (hd : strStarts d "." = false) (hx : excl.contains d = false) :
    ∀ cur, (cur ++ "/" ++ d) ∈ (tsScan excl cur items).2 := by
  induction items with
  | nil => cases hm
  | cons e rest ih =>
    intro cur
    rcases List.mem_cons.mp hm with heq | htail
    · subst heq
      have hcond : (! strStarts d "." && ! excl.contains d) = true := by
        rw [hd, hx]; rfl
      simp only [tsScan, hcond, if_true]
      exact List.mem_cons_self _ _
    · have hrest := ih htail cur
      cases e with
      | file n =>
        by_cases hgood : (strEnds n ".ts" && ! strEnds n ".spec.ts") = true
        · simp only [tsScan, hgood, if_true]
          exact hrest
        · simp only [tsScan, hgood, if_false]
          exact hrest
      | dir n readable entries =>
        by_cases hallow : (! strStarts n "." && ! excl.contains n) = true
        · cases readable with
          | true =>
            simp only [tsScan, hallow, if_true]
            exact List.mem_append_right _ hrest
          | false =>
            simp only [tsScan, hallow, if_true]
            exact List.mem_cons_of_mem _ hrest
        · simp only [tsScan, hallow, if_false]
          exact hrest

/-- Completeness of the scanner for selected files. -/
theorem tsScan_complete_sel {excl : List String} {items : List FsEntry} {q : String}
    (h : ScanSel excl items q) :
    ∀ cur, (cur ++ "/" ++ q) ∈ (tsScan excl cur items).1 := by
  induction h with
  | file_here hm h1 h2 => exact fun cur => tsScan_mem_file hm h1 h2 cur
  | in_subdir hm hd hx _ ih =>
    intro cur
    rw [← pathNest]
    exact tsScan_lift_dir_file hm hd hx cur _ (ih (cur ++ "/" ++ _))

/-- Completeness of the scanner for warnings. -/
theorem tsScan_complete_warn {excl : List String} {items : List FsEntry} {q : String}
    (h : ScanWarn excl items q) :
    ∀ cur, (cur ++ "/" ++ q) ∈ (tsScan excl cur items).2 := by
  induction h with
  | dir_unreadable hm hd hx => exact fun cur => tsScan_mem_warn hm hd hx cur
  | in_subdir hm hd hx _ ih =>
    intro cur
    rw [← pathNest]
    exact tsScan_lift_dir_warn hm hd hx cur _ (ih (cur ++ "/" ++ _))

-- ==================== C8 ====================

/-- Counterexample to C8: the cycle detector's scanner does not exclude
`coverage` directories — on a tree with `coverage/a.ts` it returns that
file, although the claimed selection rule (which excludes dependency-vendor,
build-output and coverage directories) rejects it. -/
theorem scanner_coverage_counterexample :
    detectorGetAllTsFiles "/root" true
        [FsEntry.dir "coverage" true [FsEntry.file "a.ts"]]
      = (["/root/coverage/a.ts"], []) ∧
    ¬ ScanSel projectExclusions [FsEntry.dir "coverage" true [FsEntry.file "a.ts"]]
        "coverage/a.ts" := by
  have inv : ∀ q, ¬ ScanSel projectExclusions
      [FsEntry.dir "coverage" true [FsEntry.file "a.ts"]] q := by
    intro q h
    cases h with
    | file_here hm h1 h2 => simp at hm
    | in_subdir hm hd hx hsub =>
      have he := List.mem_singleton.mp hm
      injection he with hname hr hsub2
      subst hname
      exact absurd hx (by decide)
  constructor
  · simp +decide [detectorGetAllTsFiles, tsScan, detectorExclusions]
  · exact inv _

/-- C8 (amended): each scanner returns exactly the `.ts`, non-`.spec.ts`
files not under a hidden directory and not under a directory of its own
exclusion list — `node_modules`, `dist`, `coverage` for the project
analyzer but only `node_modules`, `dist` for the cycle detector — its
warnings are exactly the unreadable allowed directories (each skipping only
its own subtree), and an unreadable root yields an empty file list with one
warning instead of aborting. -/
theorem scanner_amended_spec (rootPath : String) (entries : List FsEntry) :
    (∀ p, p ∈ (projectGetAllTsFiles rootPath true entries).1 ↔
      ∃ q, ScanSel projectExclusions entries q ∧ p = rootPath ++ "/" ++ q) ∧
    (∀ p, p ∈ (projectGetAllTsFiles rootPath true entries).2 ↔
      ∃ q, ScanWarn projectExclusions entries q ∧ p = rootPath ++ "/" ++ q) ∧
    (∀ p, p ∈ (detectorGetAllTsFiles rootPath true entries).1 ↔
      ∃ q, ScanSel detectorExclusions entries q ∧ p = rootPath ++ "/" ++ q) ∧
    (∀ p, p ∈ (detectorGetAllTsFiles rootPath true entries).2 ↔
      ∃ q, ScanWarn detectorExclusions entries q ∧ p = rootPath ++ "/" ++ q) ∧
    projectGetAllTsFiles rootPath false entries = ([], [rootPath]) ∧
    detectorGetAllTsFiles rootPath false entries = ([], [rootPath]) := by
  refine ⟨?_, ?_, ?_, ?_, rfl, rfl⟩
  · intro p
    constructor
    · intro h
      exact (tsScan_sound projectExclusions rootPath entries p).1 h
    · rintro ⟨q, hsel, rfl⟩
      exact tsScan_complete_sel hsel rootPath
  · intro p
    constructor
    · intro h
      exact (tsScan_sound projectExclusions rootPath entries p).2 h
    · rintro ⟨q, hw, rfl⟩
      exact tsScan_complete_warn hw rootPath
  · intro p
    constructor
    · intro h
      exact (tsScan_sound detectorExclusions rootPath entries p).1 h
    · rintro ⟨q, hsel, rfl⟩
      exact tsScan_complete_sel hsel rootPath
  · intro p
    constructor
    · intro h
      exact (tsScan_sound detectorExclusions rootPath entries p).2 h
    · rintro ⟨q, hw, rfl⟩
      exact tsScan_complete_warn hw rootPath

/-- Witness for C8 (amended) on a concrete tree: a plain `.ts` file is
returned, and a file under an unreadable directory is not but the directory
is warned about. -/
theorem scanner_amended_spec_witness :
    "/r/a.ts" ∈ (projectGetAllTsFiles "/r" true
        [FsEntry.dir "sub" false [FsEntry.file "c.ts"], FsEntry.file "a.ts"]).1 ∧
    "/r/sub" ∈ (projectGetAllTsFiles "/r" true
        [FsEntry.dir "sub" false [FsEntry.file "c.ts"], FsEntry.file "a.ts"]).2 := by
  constructor
  · refine ((scanner_amended_spec "/r"
      [FsEntry.dir "sub" false [FsEntry.file "c.ts"], FsEntry.file "a.ts"]).1 "/r/a.ts").mpr
      ⟨"a.ts", ScanSel.file_here ?_ (by decide) (by decide), by decide⟩
    exact List.mem_cons_of_mem _ (List.mem_cons_self _ _)
  · refine ((scanner_amended_spec "/r"
      [FsEntry.dir "sub" false [FsEntry.file "c.ts"], FsEntry.file "a.ts"]).2.1 "/r/sub").mpr
      ⟨"sub", ScanWarn.dir_unreadable (List.mem_cons_self _ _) (by decide) (by decide), by decide⟩

-- ==================== role classification ====================

/-- JavaScript `String.prototype.toLowerCase` (ASCII model). -/
def strToLower (s : String) : String :=
  String.mk (s.data.map Char.toLower)

/-- Result of `analyzeRole` in `analyze-ts-role.ts` (the fields the
classification determines). -/
structure RoleAnalysis where
  primaryRole : String
  confidence : String
deriving DecidableEq, Repr

/-- The role-decision ladder of `analyzeRole` in `analyze-ts-role.ts`,
taking the file path together with the decorator names and exported symbol
names collected from the AST.  Faithful to the source: `Component` first;
then `Injectable`, refined by the `.service.` / `.guard.` / `.interceptor.`
/ `.resolver.` file-name suffix (high confidence) and otherwise yielding
`Injectable Service` with only medium confidence; then `NgModule`, `Pipe`,
`Directive`; then the `.model.` / `.interface.` file-name conventions
(medium); then any export (`Utility/Helper`, low); else `Unknown`, low. -/
def analyzeRole (filePath : String) (decorators exports : List String) : RoleAnalysis :=
  let fileName := strToLower filePath
  if decorators.contains "Component" then ⟨"Component", "high"⟩
  else if decorators.contains "Injectable" then
    if containsSub fileName ".service." then ⟨"Service", "high"⟩
    else if containsSub fileName ".guard." then ⟨"Guard", "high"⟩
    else if containsSub fileName ".interceptor." then ⟨"Interceptor", "high"⟩
    else if containsSub fileName ".resolver." then ⟨"Resolver", "high"⟩
    else ⟨"Injectable Service", "medium"⟩
  else if decorators.contains "NgModule" then ⟨"Module", "high"⟩
  else if decorators.contains "Pipe" then ⟨"Pipe", "high"⟩
  else if decorators.contains "Directive" then ⟨"Directive", "high"⟩
  else if containsSub fileName ".model." || containsSub fileName ".interface." then
    ⟨"Model/Interface", "medium"⟩
  else if exports.length > 0 then ⟨"Utility/Helper", "low"⟩
  else ⟨"Unknown", "low"⟩

/-- An exported symbol as recorded by `ProjectAnalyzer.extractFromAST`
(name and kind string). -/
structure ExportInfo where
  name : String
  etype : String
deriving DecidableEq, Repr

/-- Role/type/confidence assigned by `ProjectAnalyzer.determineRole` in
`analyze-project.ts`. -/
structure RoleAssignment where
  role : String
  ftype : String
  confidence : String
deriving DecidableEq, Repr

/-- `ProjectAnalyzer.determineRole`: the ladder of `analyze-project.ts`.
Like `analyzeRole` it gives a bare `Injectable` only medium confidence; it
has no `.resolver.` branch, folds interface/enum exports into the filename
conventions, and labels everything else `Utility/Helper`. -/
def determineRole (filePath : String) (decorators : List String)
    (exports : List ExportInfo) : RoleAssignment :=
  let fileName := strToLower filePath
  if decorators.contains "Component" then ⟨"Angular Component", "component", "high"⟩
  else if decorators.contains "Injectable" then
    if containsSub fileName ".service." then ⟨"Angular Service", "service", "high"⟩
    else if containsSub fileName ".guard." then ⟨"Angular Guard", "guard", "high"⟩
    else if containsSub fileName ".interceptor." then ⟨"HTTP Interceptor", "interceptor", "high"⟩
    else ⟨"Injectable Service", "service", "medium"⟩
  else if decorators.contains "NgModule" then ⟨"Module", "module", "high"⟩
  else if decorators.contains "Pipe" then ⟨"Angular Pipe", "pipe", "high"⟩
  else if decorators.contains "Directive" then ⟨"Angular Directive", "directive", "high"⟩
  else if containsSub fileName ".interface." || exports.any (fun e => e.etype == "interface") then
    ⟨"Interface Definition", "interface", "medium"⟩
  else if containsSub fileName ".enum." || exports.any (fun e => e.etype == "enum") then
    ⟨"Enum Definition", "enum", "medium"⟩
  else ⟨"Utility/Helper", "other", "low"⟩

-- ==================== C9 ====================

/-- Counterexample to C9: a file carrying the explicit injectable-service
annotation (`@Injectable`) but no refining file-name suffix is classified
`Injectable Service` with confidence `medium` by both classifiers, not
`high` as step (1) of the claimed precedence requires. -/
theorem role_injectable_confidence_counterexample :
    (["Injectable"] : List String).contains "Injectable" = true ∧
    (analyzeRole "/p/foo.ts" ["Injectable"] []).confidence = "medium" ∧
    (determineRole "/p/foo.ts" ["Injectable"] []).confidence = "medium" ∧
    ("medium" : String) ≠ "high" := by
  refine ⟨by decide, by decide, by decide, by decide⟩

/-- C9 (amended): both classifiers share this decorator precedence:
`Component`, `NgModule`, `Pipe`, `Directive` give the corresponding role
with high confidence, `Injectable` refined by a `.service.` / `.guard.` /
`.interceptor.` (and, in `analyzeRole` only, `.resolver.`) file-name
suffix gives the refined role with high confidence, and a bare
`Injectable` gives `Injectable Service` with only medium confidence.
Their undecorated tails differ: `analyzeRole` (analyze-ts-role.ts) gives
the `.model.` / `.interface.` file-name conventions medium confidence,
then any exported symbol `Utility/Helper` with low confidence, else
`Unknown` with low confidence; `determineRole` (analyze-project.ts) has
no `.model.` branch — a `.interface.` file name or an interface-kind
export gives `Interface Definition` with medium confidence, a `.enum.`
file name or an enum-kind export gives `Enum Definition` with medium
confidence, and everything else (exported or not, `.model.` files
included) falls to `Utility/Helper` with low confidence. -/
theorem analyze_role_amended_spec (filePath : String) (decorators exports : List String)
    (exportInfos : List ExportInfo) :
    ((decorators.contains "Component" = true →
      determineRole filePath decorators exportInfos
        = ⟨"Angular Component", "component", "high"⟩) ∧
    (decorators.contains "Component" = false →
      decorators.contains "Injectable" = true →
      ((containsSub (strToLower filePath) ".service." = true →
          determineRole filePath decorators exportInfos
            = ⟨"Angular Service", "service", "high"⟩) ∧
       (containsSub (strToLower filePath) ".service." = false →
        containsSub (strToLower filePath) ".guard." = true →
          determineRole filePath decorators exportInfos
            = ⟨"Angular Guard", "guard", "high"⟩) ∧
       (containsSub (strToLower filePath) ".service." = false →
        containsSub (strToLower filePath) ".guard." = false →
        containsSub (strToLower filePath) ".interceptor." = true →
          determineRole filePath decorators exportInfos
            = ⟨"HTTP Interceptor", "interceptor", "high"⟩) ∧
       (containsSub (strToLower filePath) ".service." = false →
        containsSub (strToLower filePath) ".guard." = false →
        containsSub (strToLower filePath) ".interceptor." = false →
          determineRole filePath decorators exportInfos
            = ⟨"Injectable Service", "service", "medium"⟩))) ∧
    (decorators.contains "Component" = false →
      decorators.contains "Injectable" = false →
      decorators.contains "NgModule" = true →
      determineRole filePath decorators exportInfos = ⟨"Module", "module", "high"⟩) ∧
    (decorators.contains "Component" = false →
      decorators.contains "Injectable" = false →
      decorators.contains "NgModule" = false →
      decorators.contains "Pipe" = true →
      determineRole filePath decorators exportInfos = ⟨"Angular Pipe", "pipe", "high"⟩) ∧
    (decorators.contains "Component" = false →
      decorators.contains "Injectable" = false →
      decorators.contains "NgModule" = false →
      decorators.contains "Pipe" = false →
      decorators.contains "Directive" = true →
      determineRole filePath decorators exportInfos
        = ⟨"Angular Directive", "directive", "high"⟩) ∧
    (decorators.contains "Component" = false →
      decorators.contains "Injectable" = false →
      decorators.contains "NgModule" = false →
      decorators.contains "Pipe" = false →
      decorators.contains "Directive" = false →
      (containsSub (strToLower filePath) ".interface."
        || exportInfos.any (fun e => e.etype == "interface")) = true →
      determineRole filePath decorators exportInfos
        = ⟨"Interface Definition", "interface", "medium"⟩) ∧
    (decorators.contains "Component" = false →
      decorators.contains "Injectable" = false →
      decorators.contains "NgModule" = false →
      decorators.contains "Pipe" = false →
      decorators.contains "Directive" = false →
      (containsSub (strToLower filePath) ".interface."
        || exportInfos.any (fun e => e.etype == "interface")) = false →
      (containsSub (strToLower filePath) ".enum."
        || exportInfos.any (fun e => e.etype == "enum")) = true →
      determineRole filePath decorators exportInfos
        = ⟨"Enum Definition", "enum", "medium"⟩) ∧
    (decorators.contains "Component" = false →
      decorators.contains "Injectable" = false →
      decorators.contains "NgModule" = false →
      decorators.contains "Pipe" = false →
      decorators.contains "Directive" = false →
      (containsSub (strToLower filePath) ".interface."
        || exportInfos.any (fun e => e.etype == "interface")) = false →
      (containsSub (strToLower filePath) ".enum."
        || exportInfos.any (fun e => e.etype == "enum")) = false →
      determineRole filePath decorators exportInfos
        = ⟨"Utility/Helper", "other", "low"⟩)) ∧
    (decorators.contains "Component" = true →
      analyzeRole filePath decorators exports = ⟨"Component", "high"⟩) ∧
    (decorators.contains "Component" = false →
      decorators.contains "Injectable" = true →
      ((containsSub (strToLower filePath) ".service." = true →
          analyzeRole filePath decorators exports = ⟨"Service", "high"⟩) ∧
       (containsSub (strToLower filePath) ".service." = false →
        containsSub (strToLower filePath) ".guard." = true →
          analyzeRole filePath decorators exports = ⟨"Guard", "high"⟩) ∧
       (containsSub (strToLower filePath) ".service." = false →
        containsSub (strToLower filePath) ".guard." = false →
        containsSub (strToLower filePath) ".interceptor." = true →
          analyzeRole filePath decorators exports = ⟨"Interceptor", "high"⟩) ∧
       (containsSub (strToLower filePath) ".service." = false →
        containsSub (strToLower filePath) ".guard." = false →
        containsSub (strToLower filePath) ".interceptor." = false →
        containsSub (strToLower filePath) ".resolver." = true →
          analyzeRole filePath decorators exports = ⟨"Resolver", "high"⟩) ∧
       (containsSub (strToLower filePath) ".service." = false →
        containsSub (strToLower filePath) ".guard." = false →
        containsSub (strToLower filePath) ".interceptor." = false →
        containsSub (strToLower filePath) ".resolver." = false →
          analyzeRole filePath decorators exports = ⟨"Injectable Service", "medium"⟩))) ∧
    (decorators.contains "Component" = false →
      decorators.contains "Injectable" = false →
      decorators.contains "NgModule" = true →
      analyzeRole filePath decorators exports = ⟨"Module", "high"⟩) ∧
    (decorators.contains "Component" = false →
      decorators.contains "Injectable" = false →
      decorators.contains "NgModule" = false →
      decorators.contains "Pipe" = true →
      analyzeRole filePath decorators exports = ⟨"Pipe", "high"⟩) ∧
    (decorators.contains "Component" = false →
      decorators.contains "Injectable" = false →
      decorators.contains "NgModule" = false →
      decorators.contains "Pipe" = false →
      decorators.contains "Directive" = true →
      analyzeRole filePath decorators exports = ⟨"Directive", "high"⟩) ∧
    (decorators.contains "Component" = false →
      decorators.contains "Injectable" = false →
      decorators.contains "NgModule" = false →
      decorators.contains "Pipe" = false →
      decorators.contains "Directive" = false →
      (containsSub (strToLower filePath) ".model." || containsSub (strToLower filePath) ".interface.") = true →
      analyzeRole filePath decorators exports = ⟨"Model/Interface", "medium"⟩) ∧
    (decorators.contains "Component" = false →
      decorators.contains "Injectable" = false →
      decorators.contains "NgModule" = false →
      decorators.contains "Pipe" = false →
      decorators.contains "Directive" = false →
      (containsSub (strToLower filePath) ".model." || containsSub (strToLower filePath) ".interface.") = false →
      exports.length > 0 →
      analyzeRole filePath decorators exports = ⟨"Utility/Helper", "low"⟩) ∧
    (decorators.contains "Component" = false →
      decorators.contains "Injectable" = false →
      decorators.contains "NgModule" = false →
      decorators.contains "Pipe" = false →
      decorators.contains "Directive" = false →
      (containsSub (strToLower filePath) ".model." || containsSub (strToLower filePath) ".interface.") = false →
      exports.length = 0 →
      analyzeRole filePath decorators exports = ⟨"Unknown", "low"⟩) := by
  constructor
  · refine ⟨fun h1 => ?_,
            fun h1 h2 => ⟨fun h3 => ?_, fun h3 h4 => ?_, fun h3 h4 h5 => ?_,
                          fun h3 h4 h5 => ?_⟩,
            fun h1 h2 h3 => ?_, fun h1 h2 h3 h4 => ?_, fun h1 h2 h3 h4 h5 => ?_,
            fun h1 h2 h3 h4 h5 h6 => ?_, fun h1 h2 h3 h4 h5 h6 h7 => ?_,
            fun h1 h2 h3 h4 h5 h6 h7 => ?_⟩ <;>
      simp only [determineRole] <;>
      simp_all [-List.any_eq_true, -List.any_eq_false]
  · refine ⟨fun h1 => ?_,
            fun h1 h2 => ⟨fun h3 => ?_, fun h3 h4 => ?_, fun h3 h4 h5 => ?_,
                          fun h3 h4 h5 h6 => ?_, fun h3 h4 h5 h6 => ?_⟩,
            fun h1 h2 h3 => ?_, fun h1 h2 h3 h4 => ?_, fun h1 h2 h3 h4 h5 => ?_,
            fun h1 h2 h3 h4 h5 h6 => ?_, fun h1 h2 h3 h4 h5 h6 h7 => ?_,
            fun h1 h2 h3 h4 h5 h6 h7 => ?_⟩ <;>
      simp only [analyzeRole] <;>
      simp_all

/-- Witness for C9 (amended): concrete classifications — `@Injectable` with
a `.service.` file name is a high-confidence service in both ladders; a
`.model.` file is `Model/Interface` medium for `analyzeRole` but falls to
low-confidence `Utility/Helper` in `determineRole`; an interface-kind
export gives `determineRole`'s medium-confidence `Interface Definition`. -/
theorem analyze_role_amended_spec_witness :
    analyzeRole "/p/data.service.ts" ["Injectable"] ["DataService"]
      = ⟨"Service", "high"⟩ ∧
    analyzeRole "/p/user.model.ts" [] ["User"] = ⟨"Model/Interface", "medium"⟩ ∧
    determineRole "/p/user.model.ts" [] [⟨"User", "class"⟩]
      = ⟨"Utility/Helper", "other", "low"⟩ ∧
    determineRole "/p/shapes.ts" [] [⟨"Shape", "interface"⟩]
      = ⟨"Interface Definition", "interface", "medium"⟩ := by
  refine ⟨?_, ?_, ?_, ?_⟩
  · exact (analyze_role_amended_spec "/p/data.service.ts" ["Injectable"]
      ["DataService"] []).2.2.1 (by decide) (by decide) |>.1 (by decide)
  · exact (analyze_role_amended_spec "/p/user.model.ts" [] ["User"]
      []).2.2.2.2.2.2.1 (by decide) (by decide) (by decide) (by decide)
      (by decide) (by decide)
  · exact (analyze_role_amended_spec "/p/user.model.ts" [] []
      [⟨"User", "class"⟩]).1.2.2.2.2.2.2.2 (by decide) (by decide) (by decide)
      (by decide) (by decide) (by decide) (by decide)
  · exact (analyze_role_amended_spec "/p/shapes.ts" [] []
      [⟨"Shape", "interface"⟩]).1.2.2.2.2.2.1 (by decide) (by decide) (by decide)
      (by decide) (by decide) (by decide)

-- ==================== analyze-project.ts : per-file analysis & graph ====================

/-- An import statement as recorded by `ProjectAnalyzer.extractFromAST`
(source specifier and category). -/
structure ImportInfo where
  source : String
  category : String
deriving DecidableEq, Repr

/-- The data `ProjectAnalyzer.extractFromAST` gathers from a successfully
parsed syntax tree. -/
structure ParsedSource where
  decorators : List String
  imports : List ImportInfo
  exportsList : List ExportInfo
deriving DecidableEq, Repr

/-- One scanned TypeScript file as the analyzer sees it: its path, its line
count and the outcome of `parseTs` (`none` models a parse error thrown and
caught in `analyzeTypeScriptFile`). -/
structure TsFile where
  path : String
  lines : Nat
  parsed : Option ParsedSource
deriving DecidableEq, Repr

/-- The fields of `FileAnalysis` relevant to graph construction. -/
structure FileAnalysis where
  path : String
  relativePath : String
  ftype : String
  role : String
  confidence : String
  imports : List ImportInfo
  exportsList : List ExportInfo
  decorators : List String
  linesOfCode : Nat
deriving DecidableEq, Repr

/-- `ProjectAnalyzer.analyzeTypeScriptFile`: build the default analysis
record, then on parse success fill it from the AST and classify the role;
on parse failure record a warning and return the default record.  The
second component is the list of warnings recorded (file paths with parse
errors). -/
def analyzeTypeScriptFile (baseDir : String) (f : TsFile) :
    FileAnalysis × List String :=
  let analysis : FileAnalysis :=
    { path := f.path
      relativePath := relPath baseDir f.path
      ftype := "other"
      role := "Unknown"
      confidence := "low"
      imports := []
      exportsList := []
      decorators := []
      linesOfCode := f.lines }
  match f.parsed with
  | none => (analysis, [f.path])
  | some p =>
    let ra := determineRole f.path p.decorators p.exportsList
    ({ analysis with
        imports := p.imports
        exportsList := p.exportsList
        decorators := p.decorators
        role := ra.role
        ftype := ra.ftype
        confidence := ra.confidence }, [])

/-- The per-file loop of `ProjectAnalyzer.analyze`: every scanned file is
analyzed and appended to `this.files`; warnings accumulate. -/
def analyzeAllFiles (baseDir : String) : List TsFile → List FileAnalysis × List String
  | [] => ([], [])
  | f :: rest =>
    let r := analyzeTypeScriptFile baseDir f
    let rr := analyzeAllFiles baseDir rest
    (r.1 :: rr.1, r.2 ++ rr.2)

/-- A node of the project dependency graph. -/
structure DependencyNode where
  id : String
  label : String
  ntype : String
deriving DecidableEq, Repr

/-- An edge of the project dependency graph. -/
structure DependencyEdge where
  efrom : String
  eto : String
  etype : String
deriving DecidableEq, Repr

/-- The project dependency graph. -/
structure DependencyGraphA where
  nodes : List DependencyNode
  edges : List DependencyEdge
deriving DecidableEq, Repr

/-- Model of `path.basename`. -/
def basename (p : String) : String := (pathSegs p).getLastD p

/-- The import-resolution step of `ProjectAnalyzer.buildDependencyGraph`:
resolve a relative source against the importing file's directory, appending
`.ts` when the resolved path does not already end in `.ts` and that
candidate exists (no index-file step here, unlike the cycle detector). -/
def projectResolve (fs : DiskFs) (filePath source : String) : String :=
  let resolvedPath := resolvePath (resolveImport.dirname filePath) source
  if ¬ strEnds resolvedPath ".ts" then
    if existsSync fs (resolvedPath ++ ".ts") then resolvedPath ++ ".ts" else resolvedPath
  else resolvedPath

/-- `ProjectAnalyzer.buildDependencyGraph`: one node per analyzed file; one
edge per relative import whose resolved path is the path of another
analyzed file. -/
def buildDependencyGraph (fs : DiskFs) (files : List FileAnalysis) : DependencyGraphA :=
  let nodes := files.map (fun f =>
    ({ id := f.relativePath, label := basename f.path, ntype := f.ftype } : DependencyNode))
  let nodeMap := files.map (fun f =>
    (f.path, ({ id := f.relativePath, label := basename f.path, ntype := f.ftype } :
      DependencyNode)))
  let edges := files.flatMap (fun f =>
    f.imports.filterMap (fun imp =>
      if imp.category == "relative" then
        match nodeMap.lookup (projectResolve fs f.path imp.source) with
        | some targetNode =>
          some ({ efrom := f.relativePath, eto := targetNode.id, etype := "import" } :
            DependencyEdge)
        | none => none
      else none))
  { nodes := nodes, edges := edges }

-- ==================== C7 ====================

/-- C7: the dependency graph has exactly one node per scanned file — node
count equals file count — even in the presence of parse failures: a file
whose parse fails still yields an analysis record with default/empty fields,
a recorded warning, and a graph node carrying its relative path. -/
theorem graph_node_per_file (baseDir : String) (fs : DiskFs) (files : List TsFile) :
    ((buildDependencyGraph fs (analyzeAllFiles baseDir files).1).nodes.length
      = files.length) ∧
    (∀ f ∈ files, ∃ n ∈ (buildDependencyGraph fs (analyzeAllFiles baseDir files).1).nodes,
      n.id = relPath baseDir f.path) ∧
    (∀ f ∈ files, f.parsed = none →
      (∃ a ∈ (analyzeAllFiles baseDir files).1,
        a.path = f.path ∧ a.role = "Unknown" ∧ a.confidence = "low" ∧
        a.imports = [] ∧ a.decorators = [] ∧ a.exportsList = [] ∧
        a.linesOfCode = f.lines) ∧
      f.path ∈ (analyzeAllFiles baseDir files).2) := by
  have hlen : ∀ gs : List TsFile, (analyzeAllFiles baseDir gs).1.length = gs.length := by
    intro gs
    induction gs with
    | nil => rfl
    | cons g rest ih => simp [analyzeAllFiles, ih]
  refine ⟨?_, ?_, ?_⟩
  · simp only [buildDependencyGraph]
    rw [List.length_map]
    exact hlen files
  · intro f hf
    induction files with
    | nil => cases hf
    | cons g rest ih =>
      rcases List.mem_cons.mp hf with heq | htail
      · subst heq
        refine ⟨_, List.mem_map.mpr ⟨(analyzeTypeScriptFile baseDir f).1, ?_, rfl⟩, ?_⟩
        · simp [analyzeAllFiles]
        · cases hp : f.parsed <;> simp [analyzeTypeScriptFile, hp]
      · obtain ⟨n, hn, hid⟩ := ih htail
        refine ⟨n, ?_, hid⟩
        simp only [buildDependencyGraph, List.mem_map] at hn ⊢
        obtain ⟨a, ha, hna⟩ := hn
        exact ⟨a, by simp [analyzeAllFiles]; exact Or.inr ha, hna⟩
  · intro f hf hp
    induction files with
    | nil => cases hf
    | cons g rest ih =>
      rcases List.mem_cons.mp hf with heq | htail
      · subst heq
        refine ⟨⟨(analyzeTypeScriptFile baseDir f).1, by simp [analyzeAllFiles], ?_⟩, ?_⟩
        · simp [analyzeTypeScriptFile, hp]
        · simp [analyzeAllFiles, analyzeTypeScriptFile, hp]
      · obtain ⟨⟨a, ha, haprops⟩, hw⟩ := ih htail
        refine ⟨⟨a, ?_, haprops⟩, ?_⟩
        · simp only [analyzeAllFiles, List.mem_cons]
          exact Or.inr ha
        · simp only [analyzeAllFiles, List.mem_append]
          exact Or.inr hw

/-- Witness for C7: a two-file project where the second file fails to parse
still yields a two-node graph, and the failed file keeps its node and
produces a warning. -/
theorem graph_node_per_file_witness :
    ((buildDependencyGraph ⟨[]⟩ (analyzeAllFiles "/r"
        [⟨"/r/a.ts", 3, some ⟨[], [], []⟩⟩, ⟨"/r/b.ts", 7, none⟩]).1).nodes.length = 2) ∧
    ("/r/b.ts" ∈ (analyzeAllFiles "/r"
        [⟨"/r/a.ts", 3, some ⟨[], [], []⟩⟩, ⟨"/r/b.ts", 7, none⟩]).2) := by
  constructor
  · exact (graph_node_per_file "/r" ⟨[]⟩
      [⟨"/r/a.ts", 3, some ⟨[], [], []⟩⟩, ⟨"/r/b.ts", 7, none⟩]).1
  · exact ((graph_node_per_file "/r" ⟨[]⟩
      [⟨"/r/a.ts", 3, some ⟨[], [], []⟩⟩, ⟨"/r/b.ts", 7, none⟩]).2.2
      ⟨"/r/b.ts", 7, none⟩ (by simp) rfl).2

-- ==================== Tarjan SCC detection (detect-circular-deps.ts) ====================

/-- The dependency graph built by `CircularDependencyDetector.buildGraph`:
insertion-ordered map from file to its resolved imports. -/
abbrev DepGraph := List (String × List String)

/-- `this.graph.get(v)?.imports ?? []`: the successor list of a vertex
(empty for vertices outside the map). -/
def succs (g : DepGraph) (v : String) : List String :=
  (g.lookup v).getD []

/-- The map keys, in insertion order (`for (const [file] of this.graph)`). -/
def keys (g : DepGraph) : List String :=
  g.map Prod.fst

/-- All vertices that can ever be visited: keys plus all import targets. -/
def gverts (g : DepGraph) : List String :=
  keys g ++ (g.map Prod.snd).flatten

/-- The mutable state of `findStronglyConnectedComponents`: the `index`,
`lowlink` and `onStack` maps (association lists with cons-shadowing,
matching `Map.set`), the explicit stack, the `indexCounter`, and the
components recorded by `addCircularDependency` (as raw member lists). -/
structure TarjanSt where
  indexMap : List (String × Nat)
  lowlink : List (String × Nat)
  onStack : List (String × Bool)
  stack : List String
  indexCounter : Nat
  comps : List (List String)
deriving Repr

/-- `index.has(v)`. -/
def hasIdx (s : TarjanSt) (v : String) : Bool := (s.indexMap.lookup v).isSome

/-- `index.get(v)!` (with the junk default 0 for absent keys). -/
def numOf (s : TarjanSt) (v : String) : Nat := (s.indexMap.lookup v).getD 0

/-- `lowlink.get(v)!` (with the junk default 0 for absent keys). -/
def lowOf (s : TarjanSt) (v : String) : Nat := (s.lowlink.lookup v).getD 0

/-- `onStack.get(v)` (`undefined` is falsy). -/
def onStackOf (s : TarjanSt) (v : String) : Bool := (s.onStack.lookup v).getD false

/-- The entry block of `strongConnect`: set index and lowlink to the
counter, increment it, push `v` and mark it on-stack. -/
def pushVertex (s : TarjanSt) (v : String) : TarjanSt :=
  { s with indexMap := (v, s.indexCounter) :: s.indexMap
           lowlink := (v, s.indexCounter) :: s.lowlink
           indexCounter := s.indexCounter + 1
           stack := v :: s.stack
           onStack := (v, true) :: s.onStack }

/-- `lowlink.set(v, n)`. -/
def setLow (s : TarjanSt) (v : String) (n : Nat) : TarjanSt :=
  { s with lowlink := (v, n) :: s.lowlink }

/-- The `do … while (w !== v)` pop loop: split the stack into the popped
component (in pop order, `v` last) and the remaining stack. -/
def popComponent : List String → String → List String × List String
  | [], _ => ([], [])
  | w :: rest, v =>
    if w = v then ([w], rest)
    else
      let r := popComponent rest v
      (w :: r.1, r.2)

/-- The root case of `strongConnect`: pop the component, clear its on-stack
marks, and record it when its size exceeds 1. -/
def popRoot (s : TarjanSt) (v : String) : TarjanSt :=
  let r := popComponent s.stack v
  { s with stack := r.2
           onStack := r.1.foldl (fun m w => (w, false) :: m) s.onStack
           comps := if r.1.length > 1 then s.comps ++ [r.1] else s.comps }

/-- Number of not-yet-indexed vertices of `U` (termination measure). -/
def unvisitedCount (U : List String) (s : TarjanSt) : Nat :=
  (U.filter (fun x => ¬ hasIdx s x)).length

/-- The index map only grows from `s` to `s'`. -/
def StMono (s s' : TarjanSt) : Prop :=
  ∀ x, hasIdx s x = true → hasIdx s' x = true

theorem stMono_refl (s : TarjanSt) : StMono s s := fun _ h => h

theorem stMono_trans {s1 s2 s3 : TarjanSt} (h1 : StMono s1 s2) (h2 : StMono s2 s3) :
    StMono s1 s3 := fun x h => h2 x (h1 x h)

theorem lookup_cons_eq {β : Type} (m : List (String × β)) (v : String) (b : β) :
    List.lookup v ((v, b) :: m) = some b := by
  simp [List.lookup]

theorem lookup_cons_ne {β : Type} (m : List (String × β)) {x v : String} (b : β)
    (h : x ≠ v) : List.lookup x ((v, b) :: m) = List.lookup x m := by
  have hb : (x == v) = false := beq_eq_false_iff_ne.mpr h
  simp [List.lookup, hb]

theorem mem_of_lookup_some {β : Type} {m : List (String × β)} {v : String} {b : β}
    (h : m.lookup v = some b) : (v, b) ∈ m := by
  induction m with
  | nil => cases h
  | cons p t ih =>
    obtain ⟨k, c⟩ := p
    by_cases hv : v = k
    · subst hv
      rw [lookup_cons_eq] at h
      injection h with h
      subst h
      exact List.mem_cons_self _ _
    · rw [lookup_cons_ne _ _ hv] at h
      exact List.mem_cons_of_mem _ (ih h)

theorem hasIdx_pushVertex (s : TarjanSt) (v x : String) :
    hasIdx (pushVertex s v) x = (if x = v then true else hasIdx s x) := by
  by_cases h : x = v
  · subst h
    simp [hasIdx, pushVertex, lookup_cons_eq]
  · simp [hasIdx, pushVertex, lookup_cons_ne _ _ h, h]

theorem stMono_pushVertex (s : TarjanSt) (v : String) : StMono s (pushVertex s v) := by
  intro x hx
  rw [hasIdx_pushVertex]
  by_cases h : x = v <;> simp [h, hx]

theorem hasIdx_setLow (s : TarjanSt) (v : String) (n : Nat) (x : String) :
    hasIdx (setLow s v n) x = hasIdx s x := rfl

theorem hasIdx_popRoot (s : TarjanSt) (v : String) (x : String) :
    hasIdx (popRoot s v) x = hasIdx s x := rfl

theorem unvisitedCount_setLow (U : List String) (s : TarjanSt) (v : String) (n : Nat) :
    unvisitedCount U (setLow s v n) = unvisitedCount U s := rfl

theorem unvisitedCount_popRoot (U : List String) (s : TarjanSt) (v : String) :
    unvisitedCount U (popRoot s v) = unvisitedCount U s := rfl

theorem filter_length_le_of_imp {α : Type} {p q : α → Bool} (l : List α)
    (h : ∀ a, q a = true → p a = true) :
    (l.filter q).length ≤ (l.filter p).length := by
  induction l with
  | nil => exact Nat.le_refl _
  | cons a t ih =>
    by_cases hq : q a = true
    · rw [List.filter_cons_of_pos hq, List.filter_cons_of_pos (h a hq)]
      simpa using ih
    · rw [List.filter_cons_of_neg (by simpa using hq)]
      by_cases hp : p a = true
      · rw [List.filter_cons_of_pos hp]
        exact Nat.le_succ_of_le ih
      · rw [List.filter_cons_of_neg (by simpa using hp)]
        exact ih

theorem filter_length_lt_of_mem {α : Type} {p q : α → Bool} {l : List α} {v : α}
    (hv : v ∈ l) (hp : p v = true) (hq : q v = false)
    (h : ∀ a, q a = true → p a = true) :
    (l.filter q).length < (l.filter p).length := by
  induction l with
  | nil => cases hv
  | cons a t ih =>
    rcases List.mem_cons.mp hv with heq | htail
    · subst heq
      rw [List.filter_cons_of_pos hp, List.filter_cons_of_neg (by simp [hq])]
      exact Nat.lt_succ_of_le (filter_length_le_of_imp t h)
    · by_cases hqa : q a = true
      · rw [List.filter_cons_of_pos hqa, List.filter_cons_of_pos (h a hqa)]
        simpa using ih htail
      · rw [List.filter_cons_of_neg (by simpa using hqa)]
        by_cases hpa : p a = true
        · rw [List.filter_cons_of_pos hpa]
          exact Nat.lt_succ_of_le (Nat.le_of_lt (ih htail))
        · rw [List.filter_cons_of_neg (by simpa using hpa)]
          exact ih htail

theorem unvisitedCount_le_of_mono (U : List String) {s s' : TarjanSt}
    (h : StMono s s') : unvisitedCount U s' ≤ unvisitedCount U s := by
  apply filter_length_le_of_imp
  intro a ha
  simp only [decide_eq_true_eq] at ha ⊢
  intro hcon
  exact ha (h a hcon)

theorem unvisitedCount_pushVertex_lt {U : List String} {s : TarjanSt} {v : String}
    (hv : v ∈ U) (hnv : hasIdx s v = false) :
    unvisitedCount U (pushVertex s v) < unvisitedCount U s := by
  apply filter_length_lt_of_mem hv
  · simp [hnv]
  · simp [hasIdx_pushVertex]
  · intro a ha
    simp only [decide_eq_true_eq] at ha ⊢
    intro hcon
    exact ha (stMono_pushVertex s v a hcon)

theorem succs_subset_gverts (g : DepGraph) (v : String) :
    ∀ w ∈ succs g v, w ∈ gverts g := by
  intro w hw
  unfold succs at hw
  match hl : g.lookup v with
  | none => rw [hl] at hw; cases hw
  | some l =>
    rw [hl] at hw
    simp only [Option.getD_some] at hw
    have hmem : (v, l) ∈ g := mem_of_lookup_some hl
    unfold gverts
    refine List.mem_append_right _ ?_
    rw [List.mem_flatten]
    exact ⟨l, List.mem_map.mpr ⟨(v, l), hmem, rfl⟩, hw⟩

mutual
/-- `strongConnect(v)` of `findStronglyConnectedComponents`: index and push
`v`, process its successors, and pop an SCC when `v` turns out to be a
root.  The result carries the proof that the index map only grows, which
justifies termination of the nested recursion. -/
def strongConnect (g : DepGraph) (s : TarjanSt) (v : String)
    (hv : v ∈ gverts g) (hnv : hasIdx s v = false) :
    { s' : TarjanSt // StMono s s' } :=
  let s1 := pushVertex s v
  let r := succLoop g s1 v (succs g v) (succs_subset_gverts g v)
  let s2 := r.val
  if lowOf s2 v = numOf s2 v then
    ⟨popRoot s2 v, stMono_trans (stMono_pushVertex s v) (fun x hx => r.property x hx)⟩
  else
    ⟨s2, stMono_trans (stMono_pushVertex s v) r.property⟩
termination_by (unvisitedCount (gverts g) s, 0)
decreasing_by
  exact Prod.Lex.left _ _ (unvisitedCount_pushVertex_lt hv hnv)

/-- The `for (const w of node.imports)` loop of `strongConnect`: a visited
on-stack successor updates `lowlink(v)` with its index; an unvisited
successor is explored recursively and `lowlink(v)` is updated with its
lowlink. -/
def succLoop (g : DepGraph) (s : TarjanSt) (v : String) (ws : List String)
    (hws : ∀ w ∈ ws, w ∈ gverts g) :
    { s' : TarjanSt // StMono s s' } :=
  match ws with
  | [] => ⟨s, stMono_refl s⟩
  | w :: ws' =>
    if hw : hasIdx s w = true then
      if onStackOf s w then
        let s1 := setLow s v (min (lowOf s v) (numOf s w))
        let r := succLoop g s1 v ws' (fun x hx => hws x (List.mem_cons_of_mem _ hx))
        ⟨r.val, fun x hx => r.property x hx⟩
      else
        let r := succLoop g s v ws' (fun x hx => hws x (List.mem_cons_of_mem _ hx))
        ⟨r.val, r.property⟩
    else
      let r1 := strongConnect g s w (hws w (List.mem_cons_self _ _))
        (by revert hw; cases hasIdx s w <;> simp)
      let s2 := setLow r1.val v (min (lowOf r1.val v) (lowOf r1.val w))
      let r := succLoop g s2 v ws' (fun x hx => hws x (List.mem_cons_of_mem _ hx))
      ⟨r.val, stMono_trans r1.property (fun x hx => r.property x hx)⟩
termination_by (unvisitedCount (gverts g) s, ws.length + 1)
decreasing_by
  · rw [unvisitedCount_setLow]
    exact Prod.Lex.right _ (Nat.lt_succ_self _)
  · exact Prod.Lex.right _ (Nat.lt_succ_self _)
  · exact Prod.Lex.right _ (Nat.succ_pos _)
  · rw [unvisitedCount_setLow]
    rcases Nat.lt_or_ge (unvisitedCount (gverts g) r1.val)
        (unvisitedCount (gverts g) s) with hlt | hge
    · exact Prod.Lex.left _ _ hlt
    · have hle := unvisitedCount_le_of_mono (gverts g) r1.property
      have heq : unvisitedCount (gverts g) r1.val = unvisitedCount (gverts g) s :=
        Nat.le_antisymm hle hge
      rw [heq]
      exact Prod.Lex.right _ (Nat.lt_succ_self _)
end

/-- The driver loop of `findStronglyConnectedComponents`: visit every map
key that has no index yet. -/
def tarjanRun (g : DepGraph) :
    (vs : List String) → (∀ v ∈ vs, v ∈ gverts g) → TarjanSt → TarjanSt
  | [], _, s => s
  | v :: vs, h, s =>
    if hx : hasIdx s v = true then
      tarjanRun g vs (fun w hw => h w (List.mem_cons_of_mem _ hw)) s
    else
      tarjanRun g vs (fun w hw => h w (List.mem_cons_of_mem _ hw))
        (strongConnect g s v (h v (List.mem_cons_self _ _))
          (by revert hx; cases hasIdx s v <;> simp)).val

/-- The keys of the graph are vertices. -/
theorem keys_subset_gverts (g : DepGraph) : ∀ v ∈ keys g, v ∈ gverts g :=
  fun _ hv => List.mem_append_left _ hv

/-- The initial state of `findStronglyConnectedComponents`. -/
def initialTarjanSt : TarjanSt := ⟨[], [], [], [], 0, []⟩

/-- `CircularDependencyDetector.findStronglyConnectedComponents`. -/
def findStronglyConnectedComponents (g : DepGraph) : TarjanSt :=
  tarjanRun g (keys g) (keys_subset_gverts g) initialTarjanSt

/-- `detect()`: the recorded components, classified by
`addCircularDependency`. -/
def detectCircularDependencies (projectPath : String) (g : DepGraph) :
    List CircularDependency :=
  (findStronglyConnectedComponents g).comps.map (addCircularDependency projectPath)

-- ==================== graph reachability ====================

/-- A directed edge of the dependency graph. -/
def GEdge (g : DepGraph) (u w : String) : Prop := w ∈ succs g u

/-- Reachability (reflexive-transitive closure of edges). -/
def Reach (g : DepGraph) : String → String → Prop :=
  Relation.ReflTransGen (GEdge g)

/-- Mutual reachability. -/
def MutReach (g : DepGraph) (u w : String) : Prop := Reach g u w ∧ Reach g w u

/-- `S` is a strongly connected component of `g`: nonempty, mutually
reachable, and closed under mutual reachability. -/
def IsSCC (g : DepGraph) (S : Finset String) : Prop :=
  S.Nonempty ∧ (∀ x ∈ S, ∀ y ∈ S, MutReach g x y) ∧
    (∀ x ∈ S, ∀ z, MutReach g x z → z ∈ S)

-- ==================== state-operation lemmas ====================

theorem numOf_pushVertex_self (s : TarjanSt) (v : String) :
    numOf (pushVertex s v) v = s.indexCounter := by
  simp [numOf, pushVertex, lookup_cons_eq]

theorem numOf_pushVertex_ne (s : TarjanSt) {x v : String} (h : x ≠ v) :
    numOf (pushVertex s v) x = numOf s x := by
  simp [numOf, pushVertex, lookup_cons_ne _ _ h]

theorem lowOf_pushVertex_self (s : TarjanSt) (v : String) :
    lowOf (pushVertex s v) v = s.indexCounter := by
  simp [lowOf, pushVertex, lookup_cons_eq]

theorem lowOf_pushVertex_ne (s : TarjanSt) {x v : String} (h : x ≠ v) :
    lowOf (pushVertex s v) x = lowOf s x := by
  simp [lowOf, pushVertex, lookup_cons_ne _ _ h]

theorem onStackOf_pushVertex_self (s : TarjanSt) (v : String) :
    onStackOf (pushVertex s v) v = true := by
  simp [onStackOf, pushVertex, lookup_cons_eq]

theorem onStackOf_pushVertex_ne (s : TarjanSt) {x v : String} (h : x ≠ v) :
    onStackOf (pushVertex s v) x = onStackOf s x := by
  simp [onStackOf, pushVertex, lookup_cons_ne _ _ h]

theorem stack_pushVertex (s : TarjanSt) (v : String) :
    (pushVertex s v).stack = v :: s.stack := rfl

theorem counter_pushVertex (s : TarjanSt) (v : String) :
    (pushVertex s v).indexCounter = s.indexCounter + 1 := rfl

theorem comps_pushVertex (s : TarjanSt) (v : String) :
    (pushVertex s v).comps = s.comps := rfl

theorem hasIdx_pushVertex_self (s : TarjanSt) (v : String) :
    hasIdx (pushVertex s v) v = true := by
  simp [hasIdx_pushVertex]

theorem numOf_setLow (s : TarjanSt) (v : String) (n : Nat) (x : String) :
    numOf (setLow s v n) x = numOf s x := rfl

theorem onStackOf_setLow (s : TarjanSt) (v : String) (n : Nat) (x : String) :
    onStackOf (setLow s v n) x = onStackOf s x := rfl

theorem lowOf_setLow_self (s : TarjanSt) (v : String) (n : Nat) :
    lowOf (setLow s v n) v = n := by
  simp [lowOf, setLow, lookup_cons_eq]

theorem lowOf_setLow_ne (s : TarjanSt) {x v : String} (n : Nat) (h : x ≠ v) :
    lowOf (setLow s v n) x = lowOf s x := by
  simp [lowOf, setLow, lookup_cons_ne _ _ h]

theorem stack_setLow (s : TarjanSt) (v : String) (n : Nat) :
    (setLow s v n).stack = s.stack := rfl

theorem counter_setLow (s : TarjanSt) (v : String) (n : Nat) :
    (setLow s v n).indexCounter = s.indexCounter := rfl

theorem comps_setLow (s : TarjanSt) (v : String) (n : Nat) :
    (setLow s v n).comps = s.comps := rfl

theorem popComponent_spec {Δ R : List String} {v : String} (hv : v ∉ Δ) :
    popComponent (Δ ++ v :: R) v = (Δ ++ [v], R) := by
  induction Δ with
  | nil => simp [popComponent]
  | cons a t ih =>
    have hav : a ≠ v := fun h => hv (h ▸ List.mem_cons_self _ _)
    have ht : v ∉ t := fun h => hv (List.mem_cons_of_mem _ h)
    simp only [List.cons_append, popComponent, if_neg hav, List.append_eq, ih ht]

theorem onStack_foldl_lookup (comp : List String) (x : String) :
    ∀ m0 : List (String × Bool),
      List.lookup x (comp.foldl (fun m w => (w, false) :: m) m0) =
        if x ∈ comp then some false else List.lookup x m0 := by
  induction comp with
  | nil => intro m0; simp
  | cons c cs ih =>
    intro m0
    simp only [List.foldl_cons]
    rw [ih ((c, false) :: m0)]
    by_cases hx : x ∈ cs
    · simp [hx, List.mem_cons]
    · by_cases hxc : x = c
      · subst hxc
        simp [hx, lookup_cons_eq]
      · simp [hx, hxc, lookup_cons_ne _ _ hxc]

theorem numOf_popRoot (s : TarjanSt) (v : String) (x : String) :
    numOf (popRoot s v) x = numOf s x := rfl

theorem lowOf_popRoot (s : TarjanSt) (v : String) (x : String) :
    lowOf (popRoot s v) x = lowOf s x := rfl

theorem counter_popRoot (s : TarjanSt) (v : String) :
    (popRoot s v).indexCounter = s.indexCounter := rfl

/-- Pop on a stack of the shape `Δ ++ v :: R` with `v ∉ Δ`: the stack
becomes `R`, the on-stack marks of `Δ ++ [v]` are cleared, and the
component `Δ ++ [v]` is recorded when it has more than one member. -/
theorem popRoot_spec {s : TarjanSt} {Δ R : List String} {v : String}
    (hstack : s.stack = Δ ++ v :: R) (hv : v ∉ Δ) :
    (popRoot s v).stack = R ∧
    (∀ x, onStackOf (popRoot s v) x =
      (if x ∈ Δ ++ [v] then false else onStackOf s x)) ∧
    (popRoot s v).comps =
      (if (Δ ++ [v]).length > 1 then s.comps ++ [Δ ++ [v]] else s.comps) := by
  have hpc : popComponent s.stack v = (Δ ++ [v], R) := by
    rw [hstack]; exact popComponent_spec hv
  have h1 : (popRoot s v).stack = R := by
    show (popComponent s.stack v).2 = R
    rw [hpc]
  have h3 : (popRoot s v).comps =
      (if (Δ ++ [v]).length > 1 then s.comps ++ [Δ ++ [v]] else s.comps) := by
    show (if (popComponent s.stack v).1.length > 1 then
        s.comps ++ [(popComponent s.stack v).1] else s.comps) = _
    rw [hpc]
  refine ⟨h1, ?_, h3⟩
  intro x
  have h2 : onStackOf (popRoot s v) x =
      (List.lookup x (List.foldl (fun m w => (w, false) :: m) s.onStack (Δ ++ [v]))).getD
        false := by
    show (List.lookup x (List.foldl (fun m w => (w, false) :: m) s.onStack
        (popComponent s.stack v).1)).getD false = _
    rw [hpc]
  rw [h2, onStack_foldl_lookup]
  by_cases hx : x ∈ Δ ++ [v]
  · simp [hx]
  · simp [hx, onStackOf]

-- ==================== Tarjan invariants ====================

/-- `index.has(v)` as a proposition. -/
def Visited (s : TarjanSt) (v : String) : Prop := hasIdx s v = true

/-- A vertex whose SCC has been popped: visited and off the stack. -/
def Done (s : TarjanSt) (v : String) : Prop := Visited s v ∧ v ∉ s.stack

/-- Invariant satisfied by a stack vertex whose `strongConnect` call has
completed but that stayed on the stack: its lowlink is strictly below its
index and names an on-stack vertex it reaches, and each of its successors
is either finished or on the stack with a recorded bound. -/
def SettledAt (g : DepGraph) (s : TarjanSt) (x : String) : Prop :=
  lowOf s x < numOf s x ∧
  (∃ z ∈ s.stack, numOf s z = lowOf s x ∧ Reach g x z) ∧
  (∀ w ∈ succs g x, Done s w ∨
    (w ∈ s.stack ∧ (lowOf s x ≤ numOf s w ∨ numOf s x < numOf s w)))

/-- Global well-formedness of the Tarjan state relative to the list `G` of
currently active (gray) vertices, innermost first. -/
structure WF (g : DepGraph) (s : TarjanSt) (G : List String) : Prop where
  onStack_iff : ∀ v, onStackOf s v = true ↔ v ∈ s.stack
  stack_nodup : s.stack.Nodup
  stack_visited : ∀ v ∈ s.stack, Visited s v
  stack_sorted : s.stack.Pairwise (fun a b => numOf s b < numOf s a)
  num_lt_counter : ∀ v, Visited s v → numOf s v < s.indexCounter
  num_inj : ∀ u v, Visited s u → Visited s v → numOf s u = numOf s v → u = v
  low_le_num : ∀ v, Visited s v → lowOf s v ≤ numOf s v
  stack_reach : ∀ u ∈ s.stack, ∀ v ∈ s.stack, numOf s u ≤ numOf s v → Reach g u v
  done_closed : ∀ u, Done s u → ∀ z, Reach g u z → Done s z
  settled : ∀ x ∈ s.stack, x ∉ G → SettledAt g s x
  grays_stack : ∀ γ ∈ G, γ ∈ s.stack
  grays_nodup : G.Nodup
  grays_sorted : G.Pairwise (fun a b => numOf s b < numOf s a)
  comps_ok : ∀ C ∈ s.comps, C.Nodup ∧ 1 < C.length ∧ (∀ x ∈ C, Done s x) ∧
    (∀ x ∈ C, ∀ y ∈ C, MutReach g x y) ∧ (∀ x ∈ C, ∀ z, MutReach g x z → z ∈ C)
  comps_disjoint : s.comps.Pairwise (fun C D => ∀ x ∈ C, x ∉ D)
  done_in_comps : ∀ x, Done s x → (∃ y, y ≠ x ∧ MutReach g x y) → ∃ C ∈ s.comps, x ∈ C

/-- Precondition of `strongConnect g s v` with gray context `G`. -/
structure SCPre (g : DepGraph) (s : TarjanSt) (v : String) (G : List String) : Prop where
  wf : WF g s G
  fresh : hasIdx s v = false
  stack_to_v : ∀ x ∈ s.stack, Reach g x v

/-- Postcondition of `strongConnect g s v` with gray context `G`. -/
structure SCPost (g : DepGraph) (s : TarjanSt) (v : String) (G : List String)
    (s' : TarjanSt) : Prop where
  wf : WF g s' G
  mono : StMono s s'
  stack_ext : ∃ Δ, s'.stack = Δ ++ s.stack ∧ ∀ x ∈ Δ, hasIdx s x = false
  preserve_num : ∀ x, Visited s x → numOf s' x = numOf s x
  preserve_low : ∀ x, Visited s x → lowOf s' x = lowOf s x
  visited_v : Visited s' v
  num_v : numOf s' v = s.indexCounter
  counter_gt : s.indexCounter < s'.indexCounter
  new_reach : ∀ x, hasIdx s x = false → Visited s' x → Reach g v x
  new_num_ge : ∀ x, hasIdx s x = false → Visited s' x → s.indexCounter ≤ numOf s' x
  region_low : ∀ x ∈ s'.stack, numOf s' v < numOf s' x → lowOf s' v ≤ lowOf s' x
  v_cases : (v ∈ s'.stack ∧ SettledAt g s' v) ∨ (Done s' v ∧ lowOf s' v = numOf s' v)
  comps_ext : ∃ newComps, s'.comps = s.comps ++ newComps

/-- Loop invariant of the successor loop of `strongConnect` (current vertex
`v`, outer gray context `G`, remaining successors `ws`). -/
structure LoopPre (g : DepGraph) (s : TarjanSt) (v : String) (G : List String)
    (ws : List String) : Prop where
  wf : WF g s (v :: G)
  v_stack : v ∈ s.stack
  stack_to_v : ∀ x ∈ s.stack, Reach g x v
  ws_succs : ∀ w ∈ ws, w ∈ succs g v
  low_wit : ∃ z ∈ s.stack, numOf s z = lowOf s v ∧ Reach g v z
  gray_lt : ∀ γ ∈ G, numOf s γ < numOf s v
  region_low : ∀ x ∈ s.stack, numOf s v < numOf s x → lowOf s v ≤ lowOf s x

/-- Postcondition of the successor loop. -/
structure LoopPost (g : DepGraph) (s : TarjanSt) (v : String) (G : List String)
    (ws : List String) (s' : TarjanSt) : Prop where
  wf : WF g s' (v :: G)
  mono : StMono s s'
  stack_ext : ∃ Δ, s'.stack = Δ ++ s.stack ∧ ∀ x ∈ Δ, hasIdx s x = false
  preserve_num : ∀ x, Visited s x → numOf s' x = numOf s x
  preserve_low : ∀ x, Visited s x → x ≠ v → lowOf s' x = lowOf s x
  low_v_le : lowOf s' v ≤ lowOf s v
  counter_le : s.indexCounter ≤ s'.indexCounter
  new_reach : ∀ x, hasIdx s x = false → Visited s' x → Reach g v x
  new_num_ge : ∀ x, hasIdx s x = false → Visited s' x → s.indexCounter ≤ numOf s' x
  low_wit : ∃ z ∈ s'.stack, numOf s' z = lowOf s' v ∧ Reach g v z
  region_low : ∀ x ∈ s'.stack, numOf s' v < numOf s' x → lowOf s' v ≤ lowOf s' x
  edge_new : ∀ w ∈ ws, Done s' w ∨
    (w ∈ s'.stack ∧ (lowOf s' v ≤ numOf s' w ∨ numOf s' v < numOf s' w))
  comps_ext : ∃ newComps, s'.comps = s.comps ++ newComps

/-- Old stack membership is preserved by any state extension of the
`stack_ext` shape, and finished vertices stay off the extended stack. -/
theorem done_preserved {s s' : TarjanSt} {x : String}
    (hmono : StMono s s')
    (hext : ∃ Δ, s'.stack = Δ ++ s.stack ∧ ∀ y ∈ Δ, hasIdx s y = false)
    (hd : Done s x) : Done s' x := by
  obtain ⟨Δ, hst, hfresh⟩ := hext
  refine ⟨hmono x hd.1, ?_⟩
  rw [hst]
  intro hmem
  rcases List.mem_append.mp hmem with hΔ | hold
  · exact absurd hd.1 (by simp [Visited, hfresh x hΔ])
  · exact hd.2 hold

/-- Every stack vertex reaches `v`, provided every stack vertex above `v`
carries a settled lowlink witness. -/
theorem reach_to_current (g : DepGraph) (s : TarjanSt) (v : String)
    (hv : v ∈ s.stack)
    (hreach : ∀ u ∈ s.stack, ∀ w ∈ s.stack, numOf s u ≤ numOf s w → Reach g u w)
    (hset : ∀ x ∈ s.stack, numOf s v < numOf s x →
      lowOf s x < numOf s x ∧ ∃ z ∈ s.stack, numOf s z = lowOf s x ∧ Reach g x z) :
    ∀ x ∈ s.stack, Reach g x v := by
  have key : ∀ n, ∀ x ∈ s.stack, numOf s x = n → Reach g x v := by
    intro n
    induction n using Nat.strong_induction_on with
    | _ n ih =>
      intro x hx hnum
      by_cases hle : numOf s x ≤ numOf s v
      · exact hreach x hx v hv hle
      · have hgt : numOf s v < numOf s x := Nat.lt_of_not_le hle
        obtain ⟨hlow, z, hz, hnz, hrz⟩ := hset x hx hgt
        have hzn : numOf s z < n := by omega
        exact Relation.ReflTransGen.trans hrz (ih (numOf s z) hzn z hz rfl)
  exact fun x hx => key (numOf s x) x hx rfl

/-- Walking edges from the region of a root `v` (stack vertices with index
at least `v`'s) stays inside that region or among finished vertices. -/
theorem region_walk (g : DepGraph) (s : TarjanSt) (v : String) (G : List String)
    (hwf : WF g s (v :: G))
    (hv : v ∈ s.stack)
    (hgray : ∀ γ ∈ G, numOf s γ < numOf s v)
    (hregion : ∀ x ∈ s.stack, numOf s v < numOf s x → lowOf s v ≤ lowOf s x)
    (hroot : lowOf s v = numOf s v)
    (hedgev : ∀ w ∈ succs g v, Done s w ∨
      (w ∈ s.stack ∧ (lowOf s v ≤ numOf s w ∨ numOf s v < numOf s w))) :
    ∀ x z, Reach g x z →
      ((x ∈ s.stack ∧ numOf s v ≤ numOf s x) ∨ Done s x) →
      ((z ∈ s.stack ∧ numOf s v ≤ numOf s z) ∨ Done s z) := by
  intro x z hxz
  induction hxz with
  | refl => exact id
  | tail hxm hmz ih =>
    rename_i m zz
    intro hx
    rcases ih hx with ⟨hmstack, hmnum⟩ | hmdone
    · rcases Nat.eq_or_lt_of_le hmnum with heq | hlt
      · have hmv : m = v := hwf.num_inj m v (hwf.stack_visited m hmstack)
          (hwf.stack_visited v hv) heq.symm
        subst hmv
        rcases hedgev zz hmz with hdz | ⟨hzstack, hzb⟩
        · exact Or.inr hdz
        · refine Or.inl ⟨hzstack, ?_⟩
          rcases hzb with h | h
          · omega
          · omega
      · have hnotgray : m ∉ v :: G := by
          intro hmem
          rcases List.mem_cons.mp hmem with hmv | hmG
          · subst hmv; omega
          · exact absurd hlt (by have := hgray m hmG; omega)
        obtain ⟨hlowm, hwitm, hedgem⟩ := hwf.settled m hmstack hnotgray
        rcases hedgem zz hmz with hdz | ⟨hzstack, hzb⟩
        · exact Or.inr hdz
        · refine Or.inl ⟨hzstack, ?_⟩
          have hlb := hregion m hmstack hlt
          rcases hzb with h | h
          · omega
          · have hnum_le := hwf.low_le_num m (hwf.stack_visited m hmstack)
            omega
    · exact Or.inr (hwf.done_closed m hmdone zz (Relation.ReflTransGen.single hmz))

/-- With no gray vertices the stack must be empty: every stack vertex would
carry a strictly smaller on-stack lowlink witness. -/
theorem stack_empty_of_wf_nil (g : DepGraph) (s : TarjanSt) (hwf : WF g s []) :
    s.stack = [] := by
  have key : ∀ n, ∀ x ∈ s.stack, numOf s x = n → False := by
    intro n
    induction n using Nat.strong_induction_on with
    | _ n ih =>
      intro x hx hnum
      obtain ⟨hlow, ⟨z, hz, hnz, hrx⟩, hedge⟩ := hwf.settled x hx (List.not_mem_nil x)
      exact ih (numOf s z) (by omega) z hz rfl
  cases hs : s.stack with
  | nil => rfl
  | cons a t =>
    have ha : a ∈ s.stack := by rw [hs]; exact List.mem_cons_self _ _
    exact (key (numOf s a) a ha rfl).elim

/-- Entering `strongConnect`: pushing the fresh vertex `v` establishes the
successor-loop invariant for the full successor list. -/
theorem push_establishes_loop (g : DepGraph) (s : TarjanSt) (v : String)
    (G : List String) (hpre : SCPre g s v G) :
    LoopPre g (pushVertex s v) v G (succs g v) := by
  obtain ⟨hwf, hfresh, htov⟩ := hpre
  have hnv : ¬ Visited s v := fun hv => by
    rw [Visited, hfresh] at hv; exact Bool.false_ne_true hv
  have hvstack : v ∉ s.stack := fun hmem => hnv (hwf.stack_visited v hmem)
  have hne : ∀ x ∈ s.stack, x ≠ v := fun x hx he => hvstack (he ▸ hx)
  have hvis1 : ∀ x, Visited (pushVertex s v) x ↔ (x = v ∨ Visited s x) := by
    intro x
    rw [Visited, hasIdx_pushVertex]
    by_cases h : x = v <;> simp [h, Visited]
  have hnum1 : ∀ x, x ≠ v → numOf (pushVertex s v) x = numOf s x :=
    fun x h => numOf_pushVertex_ne s h
  have hlow1 : ∀ x, x ≠ v → lowOf (pushVertex s v) x = lowOf s x :=
    fun x h => lowOf_pushVertex_ne s h
  have hGne : ∀ γ ∈ G, γ ≠ v := fun γ hγ => hne γ (hwf.grays_stack γ hγ)
  have hdone1 : ∀ x, Done (pushVertex s v) x ↔ Done s x := by
    intro x
    constructor
    · rintro ⟨hvx, hnost⟩
      rw [stack_pushVertex] at hnost
      have hxv : x ≠ v := fun he => hnost (he ▸ List.mem_cons_self _ _)
      rcases (hvis1 x).mp hvx with he | hv2
      · exact absurd he hxv
      · exact ⟨hv2, fun hmem => hnost (List.mem_cons_of_mem _ hmem)⟩
    · rintro ⟨hvx, hnost⟩
      have hxv : x ≠ v := fun he => hnv (he ▸ hvx)
      refine ⟨(hvis1 x).mpr (Or.inr hvx), ?_⟩
      rw [stack_pushVertex]
      intro hmem
      rcases List.mem_cons.mp hmem with he | hm
      · exact hxv he
      · exact hnost hm
  have hwf1 : WF g (pushVertex s v) (v :: G) := by
    refine ⟨?_, ?_, ?_, ?_, ?_, ?_, ?_, ?_, ?_, ?_, ?_, ?_, ?_, ?_, ?_, ?_⟩
    · intro x
      by_cases h : x = v
      · subst h
        rw [onStackOf_pushVertex_self, stack_pushVertex]
        simp
      · rw [onStackOf_pushVertex_ne s h, stack_pushVertex]
        rw [hwf.onStack_iff x]
        simp [h]
    · rw [stack_pushVertex]
      exact List.nodup_cons.mpr ⟨hvstack, hwf.stack_nodup⟩
    · rw [stack_pushVertex]
      intro x hx
      rcases List.mem_cons.mp hx with he | hm
      · subst he
        exact (hvis1 x).mpr (Or.inl rfl)
      · exact (hvis1 x).mpr (Or.inr (hwf.stack_visited x hm))
    · rw [stack_pushVertex]
      refine List.pairwise_cons.mpr ⟨?_, ?_⟩
      · intro b hb
        rw [hnum1 b (hne b hb), numOf_pushVertex_self]
        exact hwf.num_lt_counter b (hwf.stack_visited b hb)
      · refine List.Pairwise.imp_of_mem ?_ hwf.stack_sorted
        intro a b ha hb hr
        rw [hnum1 a (hne a ha), hnum1 b (hne b hb)]
        exact hr
    · intro x hx
      rw [counter_pushVertex]
      by_cases h : x = v
      · subst h
        rw [numOf_pushVertex_self]
        omega
      · rcases (hvis1 x).mp hx with he | hv2
        · exact absurd he h
        · rw [hnum1 x h]
          have := hwf.num_lt_counter x hv2
          omega
    · intro u w hu hw hnum
      by_cases hu' : u = v <;> by_cases hw' : w = v
      · rw [hu', hw']
      · subst hu'
        rcases (hvis1 w).mp hw with he | hv2
        · exact absurd he hw'
        · rw [numOf_pushVertex_self, hnum1 w hw'] at hnum
          have := hwf.num_lt_counter w hv2
          omega
      · subst hw'
        rcases (hvis1 u).mp hu with he | hv2
        · exact absurd he hu'
        · rw [numOf_pushVertex_self, hnum1 u hu'] at hnum
          have := hwf.num_lt_counter u hv2
          omega
      · rcases (hvis1 u).mp hu with he | hu2
        · exact absurd he hu'
        · rcases (hvis1 w).mp hw with he | hw2
          · exact absurd he hw'
          · rw [hnum1 u hu', hnum1 w hw'] at hnum
            exact hwf.num_inj u w hu2 hw2 hnum
    · intro x hx
      by_cases h : x = v
      · subst h
        rw [lowOf_pushVertex_self, numOf_pushVertex_self]
      · rcases (hvis1 x).mp hx with he | hv2
        · exact absurd he h
        · rw [hnum1 x h, hlow1 x h]
          exact hwf.low_le_num x hv2
    · rw [stack_pushVertex]
      intro u hu w hw hnum
      rcases List.mem_cons.mp hu with heu | hmu <;> rcases List.mem_cons.mp hw with hew | hmw
      · subst heu; subst hew
        exact Relation.ReflTransGen.refl
      · subst heu
        rw [numOf_pushVertex_self, hnum1 w (hne w hmw)] at hnum
        have := hwf.num_lt_counter w (hwf.stack_visited w hmw)
        omega
      · subst hew
        exact htov u hmu
      · rw [hnum1 u (hne u hmu), hnum1 w (hne w hmw)] at hnum
        exact hwf.stack_reach u hmu w hmw hnum
    · intro u hdu z hrz
      exact (hdone1 z).mpr (hwf.done_closed u ((hdone1 u).mp hdu) z hrz)
    · rw [stack_pushVertex]
      intro x hx hxG
      have hxv : x ≠ v := fun he => hxG (he ▸ List.mem_cons_self _ _)
      have hxG' : x ∉ G := fun hm => hxG (List.mem_cons_of_mem _ hm)
      rcases List.mem_cons.mp hx with he | hm
      · exact absurd he hxv
      · obtain ⟨hl, ⟨z, hz, hnz, hrz⟩, hedge⟩ := hwf.settled x hm hxG'
        refine ⟨?_, ⟨z, ?_, ?_, hrz⟩, ?_⟩
        · rw [hnum1 x hxv, hlow1 x hxv]
          exact hl
        · rw [stack_pushVertex]
          exact List.mem_cons_of_mem _ hz
        · rw [hnum1 z (hne z hz), hlow1 x hxv]
          exact hnz
        · intro w hw
          rcases hedge w hw with hdw | ⟨hws, hb⟩
          · exact Or.inl ((hdone1 w).mpr hdw)
          · refine Or.inr ⟨?_, ?_⟩
            · rw [stack_pushVertex]
              exact List.mem_cons_of_mem _ hws
            · rw [hnum1 w (hne w hws), hnum1 x hxv, hlow1 x hxv]
              exact hb
    · intro γ hγ
      rw [stack_pushVertex]
      rcases List.mem_cons.mp hγ with he | hm
      · exact he ▸ List.mem_cons_self _ _
      · exact List.mem_cons_of_mem _ (hwf.grays_stack γ hm)
    · refine List.nodup_cons.mpr ⟨?_, hwf.grays_nodup⟩
      intro hvG
      exact (hGne v hvG) rfl
    · refine List.pairwise_cons.mpr ⟨?_, ?_⟩
      · intro γ hγ
        rw [hnum1 γ (hGne γ hγ), numOf_pushVertex_self]
        exact hwf.num_lt_counter γ (hwf.stack_visited γ (hwf.grays_stack γ hγ))
      · refine List.Pairwise.imp_of_mem ?_ hwf.grays_sorted
        intro a b ha hb hr
        rw [hnum1 a (hGne a ha), hnum1 b (hGne b hb)]
        exact hr
    · rw [comps_pushVertex]
      intro C hC
      obtain ⟨h1, h2, h3, h4, h5⟩ := hwf.comps_ok C hC
      exact ⟨h1, h2, fun x hx => (hdone1 x).mpr (h3 x hx), h4, h5⟩
    · rw [comps_pushVertex]
      exact hwf.comps_disjoint
    · rw [comps_pushVertex]
      intro x hdx hex
      exact hwf.done_in_comps x ((hdone1 x).mp hdx) hex
  refine ⟨hwf1, ?_, ?_, fun w hw => hw, ?_, ?_, ?_⟩
  · rw [stack_pushVertex]
    exact List.mem_cons_self _ _
  · rw [stack_pushVertex]
    intro x hx
    rcases List.mem_cons.mp hx with he | hm
    · exact he ▸ Relation.ReflTransGen.refl
    · exact htov x hm
  · refine ⟨v, ?_, ?_, Relation.ReflTransGen.refl⟩
    · rw [stack_pushVertex]
      exact List.mem_cons_self _ _
    · rw [numOf_pushVertex_self, lowOf_pushVertex_self]
  · intro γ hγ
    rw [hnum1 γ (hGne γ hγ), numOf_pushVertex_self]
    exact hwf.num_lt_counter γ (hwf.stack_visited γ (hwf.grays_stack γ hγ))
  · rw [stack_pushVertex]
    intro x hx hgt
    rcases List.mem_cons.mp hx with he | hm
    · subst he
      omega
    · rw [numOf_pushVertex_self, hnum1 x (hne x hm)] at hgt
      have := hwf.num_lt_counter x (hwf.stack_visited x hm)
      omega

/-- Lowering the current vertex's lowlink preserves well-formedness. -/
theorem wf_setLow (g : DepGraph) (s : TarjanSt) (v : String) (G : List String)
    (hwf : WF g s (v :: G)) (n : Nat) (hn : n ≤ numOf s v) :
    WF g (setLow s v n) (v :: G) := by
  refine ⟨hwf.onStack_iff, hwf.stack_nodup, hwf.stack_visited, hwf.stack_sorted,
    hwf.num_lt_counter, hwf.num_inj, ?_, hwf.stack_reach, hwf.done_closed, ?_,
    hwf.grays_stack, hwf.grays_nodup, hwf.grays_sorted, hwf.comps_ok,
    hwf.comps_disjoint, hwf.done_in_comps⟩
  · intro x hx
    by_cases h : x = v
    · subst h
      rw [lowOf_setLow_self]
      exact hn
    · rw [lowOf_setLow_ne _ _ h]
      exact hwf.low_le_num x hx
  · intro x hx hxG
    have hxv : x ≠ v := fun he => hxG (he ▸ List.mem_cons_self _ _)
    obtain ⟨hl, ⟨z, hz, hnz, hrz⟩, hedge⟩ := hwf.settled x hx hxG
    refine ⟨?_, ⟨z, hz, ?_, hrz⟩, ?_⟩
    · rw [lowOf_setLow_ne _ _ hxv]
      exact hl
    · rw [lowOf_setLow_ne _ _ hxv]
      exact hnz
    · intro w hw
      rcases hedge w hw with hdw | ⟨hws, hb⟩
      · exact Or.inl hdw
      · refine Or.inr ⟨hws, ?_⟩
        rw [lowOf_setLow_ne _ _ hxv]
        exact hb

/-- Processing a visited, on-stack successor `w`: the `min`-update with
`w`'s index preserves the loop invariant for the remaining successors. -/
theorem branch_onstack_pre {g : DepGraph} {s : TarjanSt} {v w : String}
    {G : List String} {ws : List String}
    (hpre : LoopPre g s v G (w :: ws)) (ho : onStackOf s w = true) :
    LoopPre g (setLow s v (min (lowOf s v) (numOf s w))) v G ws := by
  have hvv : Visited s v := hpre.wf.stack_visited v hpre.v_stack
  have hws : w ∈ s.stack := (hpre.wf.onStack_iff w).mp ho
  have hminle : min (lowOf s v) (numOf s w) ≤ numOf s v :=
    le_trans (min_le_left _ _) (hpre.wf.low_le_num v hvv)
  refine ⟨wf_setLow g s v G hpre.wf _ hminle, hpre.v_stack, hpre.stack_to_v,
    fun x hx => hpre.ws_succs x (List.mem_cons_of_mem _ hx), ?_, hpre.gray_lt, ?_⟩
  · rcases Nat.le_total (lowOf s v) (numOf s w) with hle | hle
    · obtain ⟨z, hz, hnz, hrz⟩ := hpre.low_wit
      refine ⟨z, hz, ?_, hrz⟩
      show numOf s z = lowOf (setLow s v _) v
      rw [lowOf_setLow_self, Nat.min_eq_left hle]
      exact hnz
    · refine ⟨w, hws, ?_, ?_⟩
      · show numOf s w = lowOf (setLow s v _) v
        rw [lowOf_setLow_self, Nat.min_eq_right hle]
      · exact Relation.ReflTransGen.single (hpre.ws_succs w (List.mem_cons_self _ _))
  · intro x hx hgt
    show lowOf (setLow s v _) v ≤ lowOf (setLow s v _) x
    have hxv : x ≠ v := by
      intro he
      subst he
      simp [numOf_setLow] at hgt
    rw [lowOf_setLow_self, lowOf_setLow_ne _ _ hxv]
    calc min (lowOf s v) (numOf s w) ≤ lowOf s v := min_le_left _ _
      _ ≤ lowOf s x := hpre.region_low x hx hgt

/-- Composing the on-stack branch with the rest of the loop. -/
theorem branch_onstack_post {g : DepGraph} {s : TarjanSt} {v w : String}
    {G : List String} {ws : List String} {s' : TarjanSt}
    (hpre : LoopPre g s v G (w :: ws)) (ho : onStackOf s w = true)
    (hpost : LoopPost g (setLow s v (min (lowOf s v) (numOf s w))) v G ws s') :
    LoopPost g s v G (w :: ws) s' := by
  have hws : w ∈ s.stack := (hpre.wf.onStack_iff w).mp ho
  have hwvis : Visited s w := hpre.wf.stack_visited w hws
  refine ⟨hpost.wf, hpost.mono, hpost.stack_ext, hpost.preserve_num, ?_, ?_,
    hpost.counter_le, hpost.new_reach, hpost.new_num_ge, hpost.low_wit,
    hpost.region_low, ?_, hpost.comps_ext⟩
  · intro x hx hxv
    rw [hpost.preserve_low x hx hxv, lowOf_setLow_ne _ _ hxv]
  · calc lowOf s' v ≤ min (lowOf s v) (numOf s w) := by
          have := hpost.low_v_le
          rwa [lowOf_setLow_self] at this
      _ ≤ lowOf s v := min_le_left _ _
  · intro u hu
    rcases List.mem_cons.mp hu with he | hm
    · subst he
      obtain ⟨Δ, hst, _⟩ := hpost.stack_ext
      refine Or.inr ⟨?_, Or.inl ?_⟩
      · rw [hst]
        exact List.mem_append_right _ hws
      · have h1 : lowOf s' v ≤ min (lowOf s v) (numOf s u) := by
          have := hpost.low_v_le
          rwa [lowOf_setLow_self] at this
        have h2 : numOf s' u = numOf s u := hpost.preserve_num u hwvis
        have := min_le_right (lowOf s v) (numOf s u)
        omega
    · exact hpost.edge_new u hm

/-- Processing a visited successor that is no longer on the stack: the
state is unchanged and the successor is finished. -/
theorem branch_offstack_post {g : DepGraph} {s : TarjanSt} {v w : String}
    {G : List String} {ws : List String} {s' : TarjanSt}
    (hpre : LoopPre g s v G (w :: ws)) (hw : hasIdx s w = true)
    (ho : onStackOf s w = false)
    (hpost : LoopPost g s v G ws s') :
    LoopPost g s v G (w :: ws) s' := by
  have hwnst : w ∉ s.stack := by
    intro hmem
    have := (hpre.wf.onStack_iff w).mpr hmem
    rw [ho] at this
    exact Bool.false_ne_true this
  refine ⟨hpost.wf, hpost.mono, hpost.stack_ext, hpost.preserve_num,
    hpost.preserve_low, hpost.low_v_le, hpost.counter_le, hpost.new_reach,
    hpost.new_num_ge, hpost.low_wit, hpost.region_low, ?_, hpost.comps_ext⟩
  intro u hu
  rcases List.mem_cons.mp hu with he | hm
  · subst he
    exact Or.inl (done_preserved hpost.mono hpost.stack_ext ⟨hw, hwnst⟩)
  · exact hpost.edge_new u hm

/-- The trivial loop post for an empty successor list. -/
theorem loop_post_nil {g : DepGraph} {s : TarjanSt} {v : String} {G : List String}
    (hpre : LoopPre g s v G []) : LoopPost g s v G [] s := by
  refine ⟨hpre.wf, stMono_refl s, ⟨[], rfl, by simp⟩, fun x _ => rfl, fun x _ _ => rfl,
    le_refl _, le_refl _, ?_, ?_, hpre.low_wit, hpre.region_low, by simp, ⟨[], by simp⟩⟩
  · intro x hx hvx
    exact absurd hvx (by simp [Visited, hx])
  · intro x hx hvx
    exact absurd hvx (by simp [Visited, hx])

/-- An unvisited successor satisfies the `strongConnect` precondition with
the current vertex prepended to the gray context. -/
theorem branch_fresh_pre {g : DepGraph} {s : TarjanSt} {v w : String}
    {G : List String} {ws : List String}
    (hpre : LoopPre g s v G (w :: ws)) (hw : hasIdx s w = false) :
    SCPre g s w (v :: G) := by
  refine ⟨hpre.wf, hw, ?_⟩
  intro x hx
  exact Relation.ReflTransGen.trans (hpre.stack_to_v x hx)
    (Relation.ReflTransGen.single (hpre.ws_succs w (List.mem_cons_self _ _)))

/-- After the recursive call on a fresh successor, the `min`-update with its
lowlink re-establishes the loop invariant. -/
theorem branch_fresh_mid {g : DepGraph} {s s3 : TarjanSt} {v w : String}
    {G : List String} {ws : List String}
    (hpre : LoopPre g s v G (w :: ws)) (hw : hasIdx s w = false)
    (hpost3 : SCPost g s w (v :: G) s3) :
    LoopPre g (setLow s3 v (min (lowOf s3 v) (lowOf s3 w))) v G ws := by
  have hvv : Visited s v := hpre.wf.stack_visited v hpre.v_stack
  have hnumv3 : numOf s3 v = numOf s v := hpost3.preserve_num v hvv
  have hlowv3 : lowOf s3 v = lowOf s v := hpost3.preserve_low v hvv
  have hnv : numOf s v < s.indexCounter := hpre.wf.num_lt_counter v hvv
  have hlv : lowOf s v ≤ numOf s v := hpre.wf.low_le_num v hvv
  obtain ⟨Δ, hst, hfresh⟩ := hpost3.stack_ext
  have hv3 : v ∈ s3.stack := by
    rw [hst]; exact List.mem_append_right _ hpre.v_stack
  have hminle : min (lowOf s3 v) (lowOf s3 w) ≤ numOf s3 v := by
    rw [hnumv3, hlowv3]
    have := min_le_left (lowOf s v) (lowOf s3 w)
    omega
  have hgray3 : ∀ γ ∈ G, numOf s3 γ < numOf s3 v := by
    intro γ hγ
    have hγs : γ ∈ s.stack := hpre.wf.grays_stack γ (List.mem_cons_of_mem _ hγ)
    rw [hnumv3, hpost3.preserve_num γ (hpre.wf.stack_visited γ hγs)]
    exact hpre.gray_lt γ hγ
  have hwf2 : WF g (setLow s3 v (min (lowOf s3 v) (lowOf s3 w))) (v :: G) :=
    wf_setLow g s3 v G hpost3.wf _ hminle
  refine ⟨hwf2, hv3, ?_, fun x hx => hpre.ws_succs x (List.mem_cons_of_mem _ hx),
    ?_, ?_, ?_⟩
  · -- every stack vertex reaches v, by descending lowlink witnesses
    refine reach_to_current g _ v hv3 hwf2.stack_reach ?_
    intro x hx hgt
    have hxv : x ≠ v := by
      intro he
      subst he
      simp at hgt
    have hxG : x ∉ v :: G := by
      intro hmem
      rcases List.mem_cons.mp hmem with he | hmG
      · exact hxv he
      · have := hgray3 x hmG
        change numOf s3 v < numOf s3 x at hgt
        omega
    obtain ⟨hl, hwit, _⟩ := hwf2.settled x hx hxG
    exact ⟨hl, hwit⟩
  · -- lowlink witness for v after the min-update
    rcases Nat.le_total (lowOf s3 v) (lowOf s3 w) with hle | hle
    · obtain ⟨z, hz, hnz, hrz⟩ := hpre.low_wit
      have hzvis : Visited s z := hpre.wf.stack_visited z hz
      refine ⟨z, ?_, ?_, hrz⟩
      · show z ∈ s3.stack
        rw [hst]; exact List.mem_append_right _ hz
      · show numOf s3 z = lowOf (setLow s3 v _) v
        rw [lowOf_setLow_self, Nat.min_eq_left hle, hpost3.preserve_num z hzvis,
          hlowv3]
        exact hnz
    · rcases hpost3.v_cases with ⟨hwst, hlow, ⟨z, hz, hnz, hrz⟩, _⟩ | ⟨hdw, heq⟩
      · refine ⟨z, hz, ?_, ?_⟩
        · show numOf s3 z = lowOf (setLow s3 v _) v
          rw [lowOf_setLow_self, Nat.min_eq_right hle]
          exact hnz
        · exact Relation.ReflTransGen.trans
            (Relation.ReflTransGen.single (hpre.ws_succs w (List.mem_cons_self _ _))) hrz
      · -- w finished with lowlink = index ≥ counter: the min keeps v's witness
        have hnw : numOf s3 w = s.indexCounter := hpost3.num_v
        have : lowOf s3 w = s.indexCounter := heq.symm ▸ hnw
        have hcontra : lowOf s3 v < lowOf s3 w := by
          rw [hlowv3, this]
          omega
        obtain ⟨z, hz, hnz, hrz⟩ := hpre.low_wit
        have hzvis : Visited s z := hpre.wf.stack_visited z hz
        refine ⟨z, ?_, ?_, hrz⟩
        · show z ∈ s3.stack
          rw [hst]; exact List.mem_append_right _ hz
        · show numOf s3 z = lowOf (setLow s3 v _) v
          rw [lowOf_setLow_self, Nat.min_eq_left (le_of_lt hcontra),
            hpost3.preserve_num z hzvis, hlowv3]
          exact hnz
  · intro γ hγ
    show numOf s3 γ < numOf s3 v
    exact hgray3 γ hγ
  · -- region lowlinks stay above the updated lowlink of v
    intro x hx hgt
    change numOf s3 v < numOf s3 x at hgt
    have hxv : x ≠ v := fun he => by subst he; omega
    show lowOf (setLow s3 v _) v ≤ lowOf (setLow s3 v _) x
    rw [lowOf_setLow_self, lowOf_setLow_ne _ _ hxv]
    have hxs3 : x ∈ s3.stack := hx
    rw [hst] at hxs3
    rcases List.mem_append.mp hxs3 with hxΔ | hxold
    · -- x is new: its lowlink is bounded below by w's final lowlink
      by_cases hxw : x = w
      · subst hxw
        exact min_le_right _ _
      · have hxvis3 : Visited s3 x := hpost3.wf.stack_visited x hx
        have hge : s.indexCounter ≤ numOf s3 x :=
          hpost3.new_num_ge x (hfresh x hxΔ) hxvis3
        have hwn : numOf s3 w = s.indexCounter := hpost3.num_v
        have hne : numOf s3 w ≠ numOf s3 x := by
          intro he
          exact hxw (hpost3.wf.num_inj w x hpost3.visited_v hxvis3 he).symm
        have hlt : numOf s3 w < numOf s3 x := by omega
        calc min (lowOf s3 v) (lowOf s3 w) ≤ lowOf s3 w := min_le_right _ _
          _ ≤ lowOf s3 x := hpost3.region_low x hx hlt
    · -- x is old: its lowlink was already above v's old lowlink
      have hxvis : Visited s x := hpre.wf.stack_visited x hxold
      have hnum3 : numOf s3 x = numOf s x := hpost3.preserve_num x hxvis
      have hlow3 : lowOf s3 x = lowOf s x := hpost3.preserve_low x hxvis
      have hgt' : numOf s v < numOf s x := by
        rw [hnumv3, hnum3] at hgt
        exact hgt
      calc min (lowOf s3 v) (lowOf s3 w) ≤ lowOf s3 v := min_le_left _ _
        _ = lowOf s v := hlowv3
        _ ≤ lowOf s x := hpre.region_low x hxold hgt'
        _ = lowOf s3 x := hlow3.symm

/-- Composing the fresh-successor branch with the rest of the loop. -/
theorem branch_fresh_post {g : DepGraph} {s s3 : TarjanSt} {v w : String}
    {G : List String} {ws : List String} {s' : TarjanSt}
    (hpre : LoopPre g s v G (w :: ws)) (hw : hasIdx s w = false)
    (hpost3 : SCPost g s w (v :: G) s3)
    (hpost : LoopPost g (setLow s3 v (min (lowOf s3 v) (lowOf s3 w))) v G ws s') :
    LoopPost g s v G (w :: ws) s' := by
  have hvv : Visited s v := hpre.wf.stack_visited v hpre.v_stack
  have hnumv3 : numOf s3 v = numOf s v := hpost3.preserve_num v hvv
  have hlowv3 : lowOf s3 v = lowOf s v := hpost3.preserve_low v hvv
  have hmono : StMono s s' := stMono_trans hpost3.mono hpost.mono
  have hvis3 : ∀ x, Visited s x → Visited s3 x := fun x hx => hpost3.mono x hx
  obtain ⟨Δ, hst, hfresh⟩ := hpost3.stack_ext
  obtain ⟨Δ2, hst2, hfresh2⟩ := hpost.stack_ext
  refine ⟨hpost.wf, hmono, ?_, ?_, ?_, ?_, ?_, ?_, ?_, hpost.low_wit,
    hpost.region_low, ?_, ?_⟩
  · refine ⟨Δ2 ++ Δ, ?_, ?_⟩
    · rw [hst2]
      show Δ2 ++ s3.stack = Δ2 ++ Δ ++ s.stack
      rw [hst, List.append_assoc]
    · intro x hx
      rcases List.mem_append.mp hx with h2 | h1
      · have := hfresh2 x h2
        change hasIdx s3 x = false at this
        cases hidx : hasIdx s x with
        | false => rfl
        | true => exact absurd (hpost3.mono x hidx) (by simp [this])
      · exact hfresh x h1
  · intro x hx
    have h1 : numOf s' x = numOf s3 x := hpost.preserve_num x (hvis3 x hx)
    rw [h1, hpost3.preserve_num x hx]
  · intro x hx hxv
    have h1 : lowOf s' x = lowOf (setLow s3 v _) x := hpost.preserve_low x (hvis3 x hx) hxv
    rw [h1, lowOf_setLow_ne _ _ hxv, hpost3.preserve_low x hx]
  · have h1 : lowOf s' v ≤ lowOf (setLow s3 v _) v := hpost.low_v_le
    rw [lowOf_setLow_self] at h1
    calc lowOf s' v ≤ min (lowOf s3 v) (lowOf s3 w) := h1
      _ ≤ lowOf s3 v := min_le_left _ _
      _ = lowOf s v := hlowv3
  · calc s.indexCounter ≤ s3.indexCounter := le_of_lt hpost3.counter_gt
      _ ≤ s'.indexCounter := hpost.counter_le
  · intro x hx hvx
    by_cases hx3 : hasIdx s3 x = true
    · have := hpost3.new_reach x hx hx3
      exact Relation.ReflTransGen.trans
        (Relation.ReflTransGen.single (hpre.ws_succs w (List.mem_cons_self _ _))) this
    · have hx3f : hasIdx s3 x = false := by
        cases h : hasIdx s3 x with
        | false => rfl
        | true => exact absurd h hx3
      exact hpost.new_reach x hx3f hvx
  · intro x hx hvx
    by_cases hx3 : hasIdx s3 x = true
    · have h1 := hpost3.new_num_ge x hx hx3
      have h2 : numOf s' x = numOf s3 x := hpost.preserve_num x hx3
      omega
    · have hx3f : hasIdx s3 x = false := by
        cases h : hasIdx s3 x with
        | false => rfl
        | true => exact absurd h hx3
      have h1 := hpost.new_num_ge x hx3f hvx
      have h2 : s.indexCounter ≤ s3.indexCounter := le_of_lt hpost3.counter_gt
      change s3.indexCounter ≤ numOf s' x at h1
      omega
  · intro u hu
    rcases List.mem_cons.mp hu with he | hm
    · subst he
      rcases hpost3.v_cases with ⟨hwst, _⟩ | ⟨hdw, _⟩
      · refine Or.inr ⟨?_, Or.inr ?_⟩
        · rw [hst2]
          exact List.mem_append_right _ hwst
        · have h1 : numOf s' u = numOf s3 u :=
            hpost.preserve_num u hpost3.visited_v
          have h2 : numOf s' v = numOf s3 v :=
            hpost.preserve_num v (hvis3 v hvv)
          have h3 : numOf s3 u = s.indexCounter := hpost3.num_v
          have h4 : numOf s v < s.indexCounter := hpre.wf.num_lt_counter v hvv
          rw [h1, h2, h3, hnumv3]
          exact h4
      · exact Or.inl (done_preserved hpost.mono ⟨Δ2, hst2, hfresh2⟩ hdw)
    · exact hpost.edge_new u hm
  · obtain ⟨n3, hc3⟩ := hpost3.comps_ext
    obtain ⟨n2, hc2⟩ := hpost.comps_ext
    refine ⟨n3 ++ n2, ?_⟩
    rw [hc2]
    show s3.comps ++ n2 = s.comps ++ (n3 ++ n2)
    rw [hc3, List.append_assoc]

/-- Closing `strongConnect` when `v` is not a root: `v` stays on the stack
as a settled vertex. -/
theorem sc_post_notroot {g : DepGraph} {s : TarjanSt} {v : String} {G : List String}
    {s2 : TarjanSt}
    (hpre : SCPre g s v G)
    (hpost : LoopPost g (pushVertex s v) v G (succs g v) s2)
    (hne : lowOf s2 v ≠ numOf s2 v) :
    SCPost g s v G s2 := by
  have hv1 : Visited (pushVertex s v) v := hasIdx_pushVertex_self s v
  have hnumv : numOf s2 v = s.indexCounter := by
    rw [hpost.preserve_num v hv1, numOf_pushVertex_self]
  have hvstack : v ∉ s.stack := fun hmem => by
    have := hpre.wf.stack_visited v hmem
    rw [Visited, hpre.fresh] at this
    exact Bool.false_ne_true this
  have hvis2 : Visited s2 v := hpost.mono v hv1
  have hlowlt : lowOf s2 v < numOf s2 v :=
    Nat.lt_of_le_of_ne (hpost.wf.low_le_num v hvis2) hne
  obtain ⟨Δ, hst, hfresh⟩ := hpost.stack_ext
  rw [stack_pushVertex] at hst
  have hvin2 : v ∈ s2.stack := by
    rw [hst]
    exact List.mem_append_right _ (List.mem_cons_self _ _)
  have hsettledv : SettledAt g s2 v :=
    ⟨hlowlt, hpost.low_wit, fun w hw => hpost.edge_new w hw⟩
  have hwfG : WF g s2 G := by
    refine ⟨hpost.wf.onStack_iff, hpost.wf.stack_nodup, hpost.wf.stack_visited,
      hpost.wf.stack_sorted, hpost.wf.num_lt_counter, hpost.wf.num_inj,
      hpost.wf.low_le_num, hpost.wf.stack_reach, hpost.wf.done_closed, ?_,
      fun γ hγ => hpost.wf.grays_stack γ (List.mem_cons_of_mem _ hγ),
      (List.nodup_cons.mp hpost.wf.grays_nodup).2,
      (List.pairwise_cons.mp hpost.wf.grays_sorted).2,
      hpost.wf.comps_ok, hpost.wf.comps_disjoint, hpost.wf.done_in_comps⟩
    intro x hx hxG
    by_cases hxv : x = v
    · subst hxv
      exact hsettledv
    · exact hpost.wf.settled x hx (by
        intro hmem
        rcases List.mem_cons.mp hmem with he | hm
        · exact hxv he
        · exact hxG hm)
  refine ⟨hwfG, stMono_trans (stMono_pushVertex s v) hpost.mono,
    ⟨Δ ++ [v], ?_, ?_⟩, ?_, ?_, hvis2, hnumv, ?_, ?_, ?_, hpost.region_low,
    Or.inl ⟨hvin2, hsettledv⟩, ?_⟩
  · rw [hst, List.append_assoc]
    rfl
  · intro x hx
    rcases List.mem_append.mp hx with hΔ | hxv
    · have h1 := hfresh x hΔ
      change hasIdx (pushVertex s v) x = false at h1
      cases h : hasIdx s x with
      | false => rfl
      | true => exact absurd (stMono_pushVertex s v x h) (by simp [h1])
    · rcases List.mem_singleton.mp hxv with rfl
      exact hpre.fresh
  · intro x hx
    have hxv : x ≠ v := fun he => by
      rw [he, Visited, hpre.fresh] at hx
      exact Bool.false_ne_true hx
    rw [hpost.preserve_num x (stMono_pushVertex s v x hx), numOf_pushVertex_ne s hxv]
  · intro x hx
    have hxv : x ≠ v := fun he => by
      rw [he, Visited, hpre.fresh] at hx
      exact Bool.false_ne_true hx
    rw [hpost.preserve_low x (stMono_pushVertex s v x hx) hxv,
      lowOf_pushVertex_ne s hxv]
  · have h1 : (pushVertex s v).indexCounter ≤ s2.indexCounter := hpost.counter_le
    rw [counter_pushVertex] at h1
    omega
  · intro x hx hvx
    by_cases hxv : x = v
    · subst hxv
      exact Relation.ReflTransGen.refl
    · have hx1 : hasIdx (pushVertex s v) x = false := by
        rw [hasIdx_pushVertex]
        simp [hxv, hx]
      exact hpost.new_reach x hx1 hvx
  · intro x hx hvx
    by_cases hxv : x = v
    · subst hxv
      omega
    · have hx1 : hasIdx (pushVertex s v) x = false := by
        rw [hasIdx_pushVertex]
        simp [hxv, hx]
      have h1 := hpost.new_num_ge x hx1 hvx
      rw [counter_pushVertex] at h1
      omega
  · obtain ⟨nc, hc⟩ := hpost.comps_ext
    rw [comps_pushVertex] at hc
    exact ⟨nc, hc⟩

/-- A list with two distinct members has length at least two. -/
theorem one_lt_length_of_two_mem {l : List String} {x y : String}
    (hx : x ∈ l) (hy : y ∈ l) (hne : y ≠ x) : 1 < l.length := by
  match l with
  | [] => cases hx
  | [a] =>
    rw [List.mem_singleton] at hx hy
    exact absurd (hy.trans hx.symm) hne
  | a :: b :: t =>
    simp only [List.length_cons]
    omega

/-- Closing `strongConnect` when `v` is a root: the popped segment is
exactly the strongly connected component of `v`. -/
theorem sc_post_root {g : DepGraph} {s : TarjanSt} {v : String} {G : List String}
    {s2 : TarjanSt}
    (hpre : SCPre g s v G)
    (hpost : LoopPost g (pushVertex s v) v G (succs g v) s2)
    (hroot : lowOf s2 v = numOf s2 v) :
    SCPost g s v G (popRoot s2 v) := by
  have hv1 : Visited (pushVertex s v) v := hasIdx_pushVertex_self s v
  have hvis2 : Visited s2 v := hpost.mono v hv1
  have hnumv : numOf s2 v = s.indexCounter := by
    rw [hpost.preserve_num v hv1, numOf_pushVertex_self]
  have hvstack : v ∉ s.stack := fun hmem => by
    have := hpre.wf.stack_visited v hmem
    rw [Visited, hpre.fresh] at this
    exact Bool.false_ne_true this
  obtain ⟨Δ, hst, hfresh⟩ := hpost.stack_ext
  rw [stack_pushVertex] at hst
  have hfreshS : ∀ x ∈ Δ, hasIdx s x = false := by
    intro x hx
    have h1 := hfresh x hx
    change hasIdx (pushVertex s v) x = false at h1
    cases h : hasIdx s x with
    | false => rfl
    | true => exact absurd (stMono_pushVertex s v x h) (by simp [h1])
  have hvΔ : v ∉ Δ := by
    intro h
    have h1 := hfresh v h
    change hasIdx (pushVertex s v) v = false at h1
    rw [hasIdx_pushVertex_self] at h1
    simp at h1
  have hpnum : ∀ x, Visited s x → numOf s2 x = numOf s x := by
    intro x hx
    have hxv : x ≠ v := fun he => by
      rw [he, Visited, hpre.fresh] at hx
      exact Bool.false_ne_true hx
    rw [hpost.preserve_num x (stMono_pushVertex s v x hx), numOf_pushVertex_ne s hxv]
  have hplow : ∀ x, Visited s x → lowOf s2 x = lowOf s x := by
    intro x hx
    have hxv : x ≠ v := fun he => by
      rw [he, Visited, hpre.fresh] at hx
      exact Bool.false_ne_true hx
    rw [hpost.preserve_low x (stMono_pushVertex s v x hx) hxv,
      lowOf_pushVertex_ne s hxv]
  have hstack2 : s2.stack = (Δ ++ [v]) ++ s.stack := by
    rw [hst, List.append_assoc]
    rfl
  have hps := popRoot_spec hst hvΔ
  have hcompstack : ∀ x ∈ Δ ++ [v], x ∈ s2.stack := by
    intro x hx
    rw [hstack2]
    exact List.mem_append_left _ hx
  have hvin2 : v ∈ s2.stack :=
    hcompstack v (List.mem_append_right _ (List.mem_singleton.mpr rfl))
  have holdstack : ∀ x ∈ s.stack, x ∈ s2.stack := by
    intro x hx
    rw [hstack2]
    exact List.mem_append_right _ hx
  have hdisj : ∀ x ∈ Δ ++ [v], x ∉ s.stack := by
    have hnd : ((Δ ++ [v]) ++ s.stack).Nodup := hstack2 ▸ hpost.wf.stack_nodup
    intro x hx hxs
    exact (List.disjoint_of_nodup_append hnd) hx hxs
  have hchar : ∀ x ∈ s2.stack, (x ∈ Δ ++ [v] ↔ numOf s2 v ≤ numOf s2 x) := by
    intro x hx
    constructor
    · intro hxc
      rcases List.mem_append.mp hxc with hxΔ | hxv
      · have hge := hpost.new_num_ge x (hfresh x hxΔ)
          (hpost.wf.stack_visited x hx)
        rw [counter_pushVertex] at hge
        omega
      · rcases List.mem_singleton.mp hxv with rfl
        exact le_refl _
    · intro hle
      have hx2 : x ∈ (Δ ++ [v]) ++ s.stack := hstack2 ▸ hx
      rcases List.mem_append.mp hx2 with hxc | hxs
      · exact hxc
      · have hxvis : Visited s x := hpre.wf.stack_visited x hxs
        have h1 : numOf s2 x = numOf s x := hpnum x hxvis
        have h2 : numOf s x < s.indexCounter := hpre.wf.num_lt_counter x hxvis
        omega
  have hgray2 : ∀ γ ∈ G, numOf s2 γ < numOf s2 v := by
    intro γ hγ
    have hγs : γ ∈ s.stack := hpre.wf.grays_stack γ hγ
    have hγvis : Visited s γ := hpre.wf.stack_visited γ hγs
    rw [hpnum γ hγvis, hnumv]
    exact hpre.wf.num_lt_counter γ hγvis
  have hnotgray : ∀ x ∈ s2.stack, numOf s2 v < numOf s2 x → x ∉ v :: G := by
    intro x hx hgt hmem
    rcases List.mem_cons.mp hmem with he | hmG
    · subst he; omega
    · have := hgray2 x hmG; omega
  have hset : ∀ x ∈ s2.stack, numOf s2 v < numOf s2 x →
      lowOf s2 x < numOf s2 x ∧
        ∃ z ∈ s2.stack, numOf s2 z = lowOf s2 x ∧ Reach g x z := by
    intro x hx hgt
    obtain ⟨h1, h2, _⟩ := hpost.wf.settled x hx (hnotgray x hx hgt)
    exact ⟨h1, h2⟩
  have hreachall : ∀ x ∈ s2.stack, Reach g x v :=
    reach_to_current g s2 v hvin2 hpost.wf.stack_reach hset
  have hwalk := region_walk g s2 v G hpost.wf hvin2 hgray2 hpost.region_low hroot
    (fun w hw => hpost.edge_new w hw)
  have hF1 : ∀ x ∈ Δ ++ [v], Reach g v x := by
    intro x hx
    exact hpost.wf.stack_reach v hvin2 x (hcompstack x hx)
      ((hchar x (hcompstack x hx)).mp hx)
  have hF4 : ∀ x ∈ Δ ++ [v], ∀ z, MutReach g x z → z ∈ Δ ++ [v] := by
    intro x hx z ⟨hxz, hzx⟩
    have hvz : Reach g v z := Relation.ReflTransGen.trans (hF1 x hx) hxz
    rcases hwalk v z hvz (Or.inl ⟨hvin2, le_refl _⟩) with ⟨hzs, hzn⟩ | hdz
    · exact (hchar z hzs).mpr hzn
    · have hdx := hpost.wf.done_closed z hdz x hzx
      exact absurd (hcompstack x hx) hdx.2
  have hF3 : ∀ x ∈ Δ ++ [v], ∀ y ∈ Δ ++ [v], MutReach g x y := by
    intro x hx y hy
    exact ⟨Relation.ReflTransGen.trans (hreachall x (hcompstack x hx)) (hF1 y hy),
      Relation.ReflTransGen.trans (hreachall y (hcompstack y hy)) (hF1 x hx)⟩
  have hF5 : (Δ ++ [v]).Nodup := by
    have hnd : ((Δ ++ [v]) ++ s.stack).Nodup := hstack2 ▸ hpost.wf.stack_nodup
    exact (List.nodup_append.mp hnd).1
  have hdone' : ∀ x, Done (popRoot s2 v) x ↔ (Done s2 x ∨ x ∈ Δ ++ [v]) := by
    intro x
    constructor
    · rintro ⟨hvx, hnst⟩
      rw [hps.1] at hnst
      by_cases hx2 : x ∈ s2.stack
      · have hx2' : x ∈ (Δ ++ [v]) ++ s.stack := hstack2 ▸ hx2
        rcases List.mem_append.mp hx2' with hc | hs'
        · exact Or.inr hc
        · exact absurd hs' hnst
      · exact Or.inl ⟨hvx, hx2⟩
    · intro hx
      rcases hx with ⟨hvx, hnst⟩ | hc
      · refine ⟨hvx, ?_⟩
        rw [hps.1]
        intro hmem
        exact hnst (holdstack x hmem)
      · refine ⟨hpost.wf.stack_visited x (hcompstack x hc), ?_⟩
        rw [hps.1]
        exact hdisj x hc
  have hdoneclosed' : ∀ u, Done (popRoot s2 v) u → ∀ z, Reach g u z →
      Done (popRoot s2 v) z := by
    intro u hdu z hrz
    rcases (hdone' u).mp hdu with hd2 | hc
    · exact (hdone' z).mpr (Or.inl (hpost.wf.done_closed u hd2 z hrz))
    · have hru : numOf s2 v ≤ numOf s2 u := (hchar u (hcompstack u hc)).mp hc
      rcases hwalk u z hrz (Or.inl ⟨hcompstack u hc, hru⟩) with ⟨hzs, hzn⟩ | hdz
      · exact (hdone' z).mpr (Or.inr ((hchar z hzs).mpr hzn))
      · exact (hdone' z).mpr (Or.inl hdz)
  have hlen_cases := hps.2.2
  have hmemcomps' : ∀ C ∈ (popRoot s2 v).comps,
      C ∈ s2.comps ∨ (C = Δ ++ [v] ∧ 1 < (Δ ++ [v]).length) := by
    intro C hC
    rw [hlen_cases] at hC
    by_cases hl : (Δ ++ [v]).length > 1
    · rw [if_pos hl] at hC
      rcases List.mem_append.mp hC with ho | hn
      · exact Or.inl ho
      · exact Or.inr ⟨List.mem_singleton.mp hn, hl⟩
    · rw [if_neg hl] at hC
      exact Or.inl hC
  have hwfG : WF g (popRoot s2 v) G := by
    refine ⟨?_, ?_, ?_, ?_, ?_, ?_, ?_, ?_, hdoneclosed', ?_, ?_, ?_, ?_, ?_, ?_, ?_⟩
    · intro x
      have ho := hps.2.1 x
      rw [ho, hps.1]
      by_cases hc : x ∈ Δ ++ [v]
      · rw [if_pos hc]
        constructor
        · intro h; exact absurd h Bool.false_ne_true
        · intro h; exact absurd h (hdisj x hc)
      · rw [if_neg hc]
        rw [hpost.wf.onStack_iff x]
        constructor
        · intro h
          have hx2' : x ∈ (Δ ++ [v]) ++ s.stack := hstack2 ▸ h
          rcases List.mem_append.mp hx2' with h1 | h2
          · exact absurd h1 hc
          · exact h2
        · exact holdstack x
    · rw [hps.1]
      have hnd : ((Δ ++ [v]) ++ s.stack).Nodup := hstack2 ▸ hpost.wf.stack_nodup
      exact (List.nodup_append.mp hnd).2.1
    · rw [hps.1]
      intro x hx
      exact hpost.wf.stack_visited x (holdstack x hx)
    · rw [hps.1]
      have hsort : ((Δ ++ [v]) ++ s.stack).Pairwise
          (fun a b => numOf s2 b < numOf s2 a) := hstack2 ▸ hpost.wf.stack_sorted
      exact (List.pairwise_append.mp hsort).2.1
    · exact hpost.wf.num_lt_counter
    · exact hpost.wf.num_inj
    · exact hpost.wf.low_le_num
    · rw [hps.1]
      intro u hu w hw hle
      exact hpost.wf.stack_reach u (holdstack u hu) w (holdstack w hw) hle
    · rw [hps.1]
      intro x hx hxG
      have hxvis : Visited s x := hpre.wf.stack_visited x hx
      have hxv : x ≠ v := fun he => hvstack (he ▸ hx)
      have hxnotvG : x ∉ v :: G := by
        intro hmem
        rcases List.mem_cons.mp hmem with he | hm
        · exact hxv he
        · exact hxG hm
      obtain ⟨h1, ⟨z, hz, hnz, hrz⟩, hedge⟩ :=
        hpost.wf.settled x (holdstack x hx) hxnotvG
      have hnumx : numOf s2 x < numOf s2 v := by
        rw [hnumv, hpnum x hxvis]
        exact hpre.wf.num_lt_counter x hxvis
      have hznum : numOf s2 z < numOf s2 v := by omega
      have hzold : z ∈ s.stack := by
        have hz2 : z ∈ (Δ ++ [v]) ++ s.stack := hstack2 ▸ hz
        rcases List.mem_append.mp hz2 with hc | hs'
        · have := (hchar z hz).mp hc
          omega
        · exact hs'
      refine ⟨h1, ⟨z, by rw [hps.1]; exact hzold, hnz, hrz⟩, ?_⟩
      intro w hw
      rcases hedge w hw with hdw | ⟨hws, hb⟩
      · exact Or.inl ((hdone' w).mpr (Or.inl hdw))
      · have hw2 : w ∈ (Δ ++ [v]) ++ s.stack := hstack2 ▸ hws
        rcases List.mem_append.mp hw2 with hc | hs'
        · exact Or.inl ((hdone' w).mpr (Or.inr hc))
        · refine Or.inr ⟨by rw [hps.1]; exact hs', hb⟩
    · intro γ hγ
      rw [hps.1]
      exact hpre.wf.grays_stack γ hγ
    · exact hpre.wf.grays_nodup
    · exact (List.pairwise_cons.mp hpost.wf.grays_sorted).2
    · intro C hC
      rcases hmemcomps' C hC with ho | ⟨rfl, hl⟩
      · obtain ⟨h1, h2, h3, h4, h5⟩ := hpost.wf.comps_ok C ho
        exact ⟨h1, h2, fun x hx => (hdone' x).mpr (Or.inl (h3 x hx)), h4, h5⟩
      · exact ⟨hF5, hl, fun x hx => (hdone' x).mpr (Or.inr hx), hF3, hF4⟩
    · rw [hlen_cases]
      by_cases hl : (Δ ++ [v]).length > 1
      · rw [if_pos hl]
        rw [List.pairwise_append]
        refine ⟨hpost.wf.comps_disjoint, List.pairwise_singleton _ _, ?_⟩
        intro C hC D hD x hxC
        rcases List.mem_singleton.mp hD with rfl
        intro hxD
        have hdx := (hpost.wf.comps_ok C hC).2.2.1 x hxC
        exact hdx.2 (hcompstack x hxD)
      · rw [if_neg hl]
        exact hpost.wf.comps_disjoint
    · intro x hdx hex
      rcases (hdone' x).mp hdx with hd2 | hc
      · obtain ⟨C, hC, hxC⟩ := hpost.wf.done_in_comps x hd2 hex
        refine ⟨C, ?_, hxC⟩
        rw [hlen_cases]
        by_cases hl : (Δ ++ [v]).length > 1
        · rw [if_pos hl]
          exact List.mem_append_left _ hC
        · rw [if_neg hl]
          exact hC
      · obtain ⟨y, hyne, hymut⟩ := hex
        have hyc : y ∈ Δ ++ [v] := hF4 x hc y hymut
        have hl : 1 < (Δ ++ [v]).length := one_lt_length_of_two_mem hc hyc hyne
        refine ⟨Δ ++ [v], ?_, hc⟩
        rw [hlen_cases, if_pos hl]
        exact List.mem_append_right _ (List.mem_singleton.mpr rfl)
  refine ⟨hwfG, ?_, ⟨[], by rw [hps.1]; rfl, by simp⟩, ?_, ?_, hvis2, hnumv, ?_, ?_, ?_, ?_,
    Or.inr ⟨(hdone' v).mpr (Or.inr (List.mem_append_right _ (List.mem_singleton.mpr rfl))),
      hroot⟩, ?_⟩
  · exact stMono_trans (stMono_pushVertex s v) hpost.mono
  · exact fun x hx => hpnum x hx
  · exact fun x hx => hplow x hx
  · have h1 : (pushVertex s v).indexCounter ≤ s2.indexCounter := hpost.counter_le
    rw [counter_pushVertex] at h1
    show s.indexCounter < s2.indexCounter
    omega
  · intro x hx hvx
    by_cases hxv : x = v
    · subst hxv
      exact Relation.ReflTransGen.refl
    · have hx1 : hasIdx (pushVertex s v) x = false := by
        rw [hasIdx_pushVertex]
        simp [hxv, hx]
      exact hpost.new_reach x hx1 hvx
  · intro x hx hvx
    show s.indexCounter ≤ numOf s2 x
    by_cases hxv : x = v
    · subst hxv
      omega
    · have hx1 : hasIdx (pushVertex s v) x = false := by
        rw [hasIdx_pushVertex]
        simp [hxv, hx]
      have h1 := hpost.new_num_ge x hx1 hvx
      rw [counter_pushVertex] at h1
      omega
  · intro x hx hgt
    rw [hps.1] at hx
    have hxvis : Visited s x := hpre.wf.stack_visited x hx
    change numOf s2 v < numOf s2 x at hgt
    rw [hnumv, hpnum x hxvis] at hgt
    have := hpre.wf.num_lt_counter x hxvis
    omega
  · obtain ⟨nc, hc⟩ := hpost.comps_ext
    rw [comps_pushVertex] at hc
    rw [hlen_cases]
    by_cases hl : (Δ ++ [v]).length > 1
    · rw [if_pos hl, hc, List.append_assoc]
      exact ⟨nc ++ [Δ ++ [v]], rfl⟩
    · rw [if_neg hl, hc]
      exact ⟨nc, rfl⟩

/-- The tail of a loop invariant. -/
theorem loopPre_tail {g : DepGraph} {s : TarjanSt} {v w : String} {G : List String}
    {ws : List String} (hpre : LoopPre g s v G (w :: ws)) : LoopPre g s v G ws :=
  ⟨hpre.wf, hpre.v_stack, hpre.stack_to_v,
    fun x hx => hpre.ws_succs x (List.mem_cons_of_mem _ hx), hpre.low_wit,
    hpre.gray_lt, hpre.region_low⟩

/-- Master correctness of the mutual recursion: `strongConnect` satisfies
its postcondition and the successor loop its loop postcondition, by strong
induction on the number of unvisited vertices. -/
theorem tarjanSpec (g : DepGraph) : ∀ n : Nat,
    (∀ (s : TarjanSt) (v : String) (G : List String) (hv : v ∈ gverts g)
        (hnv : hasIdx s v = false), unvisitedCount (gverts g) s ≤ n →
      SCPre g s v G → SCPost g s v G (strongConnect g s v hv hnv).val) ∧
    (∀ (ws : List String) (s : TarjanSt) (v : String) (G : List String)
        (hws : ∀ w ∈ ws, w ∈ gverts g), unvisitedCount (gverts g) s ≤ n →
      LoopPre g s v G ws → LoopPost g s v G ws (succLoop g s v ws hws).val) := by
  intro n
  induction n using Nat.strong_induction_on with
  | _ n ih =>
    have hP1 : ∀ (s : TarjanSt) (v : String) (G : List String) (hv : v ∈ gverts g)
        (hnv : hasIdx s v = false), unvisitedCount (gverts g) s ≤ n →
        SCPre g s v G → SCPost g s v G (strongConnect g s v hv hnv).val := by
      intro s v G hv hnv hb hpre
      have hlt : unvisitedCount (gverts g) (pushVertex s v) < n :=
        lt_of_lt_of_le (unvisitedCount_pushVertex_lt hv hnv) hb
      have hloop := (ih _ hlt).2 (succs g v) (pushVertex s v) v G
        (succs_subset_gverts g v) (le_refl _) (push_establishes_loop g s v G hpre)
      rw [strongConnect]
      split
      · exact sc_post_root hpre hloop (by assumption)
      · exact sc_post_notroot hpre hloop (by assumption)
    have hP2 : ∀ (ws : List String) (s : TarjanSt) (v : String) (G : List String)
        (hws : ∀ w ∈ ws, w ∈ gverts g), unvisitedCount (gverts g) s ≤ n →
        LoopPre g s v G ws → LoopPost g s v G ws (succLoop g s v ws hws).val := by
      intro ws
      induction ws with
      | nil =>
        intro s v G hws hb hpre
        rw [succLoop]
        exact loop_post_nil hpre
      | cons w ws' ihw =>
        intro s v G hws hb hpre
        rw [succLoop]
        split
        · rename_i hw
          split
          · rename_i ho
            have hpre1 := branch_onstack_pre hpre ho
            have hb1 : unvisitedCount (gverts g)
                (setLow s v (min (lowOf s v) (numOf s w))) ≤ n := by
              rw [unvisitedCount_setLow]
              exact hb
            exact branch_onstack_post hpre ho
              (ihw (setLow s v (min (lowOf s v) (numOf s w))) v G _ hb1 hpre1)
          · rename_i ho
            have hof : onStackOf s w = false := by
              cases h : onStackOf s w with
              | false => rfl
              | true => exact absurd h ho
            exact branch_offstack_post hpre hw hof
              (ihw s v G _ hb (loopPre_tail hpre))
        · rename_i hw
          have hnvw : hasIdx s w = false := by
            cases h : hasIdx s w with
            | false => rfl
            | true => exact absurd h hw
          have hpre_w := branch_fresh_pre hpre hnvw
          have hpost3 := hP1 s w (v :: G) (hws w (List.mem_cons_self _ _))
            hnvw hb hpre_w
          have hpre2 := branch_fresh_mid hpre hnvw hpost3
          have hb2 : unvisitedCount (gverts g)
              (setLow (strongConnect g s w (hws w (List.mem_cons_self _ _)) hnvw).val v
                (min (lowOf (strongConnect g s w (hws w (List.mem_cons_self _ _)) hnvw).val v)
                  (lowOf (strongConnect g s w (hws w (List.mem_cons_self _ _)) hnvw).val w)))
              ≤ n := by
            rw [unvisitedCount_setLow]
            exact le_trans (unvisitedCount_le_of_mono (gverts g) hpost3.mono) hb
          exact branch_fresh_post hpre hnvw hpost3 (ihw _ v G _ hb2 hpre2)
    exact ⟨hP1, hP2⟩

/-- Only map keys have successors. -/
theorem mem_keys_of_succ {g : DepGraph} {u w : String} (h : w ∈ succs g u) :
    u ∈ keys g := by
  unfold succs at h
  cases hl : g.lookup u with
  | none => rw [hl] at h; exact absurd h (List.not_mem_nil w)
  | some l =>
    have := mem_of_lookup_some hl
    exact List.mem_map.mpr ⟨(u, l), this, rfl⟩

/-- The empty state is well-formed with no gray vertices. -/
theorem wf_initial (g : DepGraph) : WF g initialTarjanSt [] := by
  refine ⟨?_, ?_, ?_, ?_, ?_, ?_, ?_, ?_, ?_, ?_, ?_, ?_, ?_, ?_, ?_, ?_⟩
  · intro v
    simp [onStackOf, initialTarjanSt, List.lookup]
  · exact List.nodup_nil
  · intro v hv
    exact absurd hv (List.not_mem_nil v)
  · exact List.Pairwise.nil
  · intro v hv
    simp [Visited, hasIdx, initialTarjanSt, List.lookup] at hv
  · intro u v hu _ _
    simp [Visited, hasIdx, initialTarjanSt, List.lookup] at hu
  · intro v hv
    simp [Visited, hasIdx, initialTarjanSt, List.lookup] at hv
  · intro u hu
    exact absurd hu (List.not_mem_nil u)
  · intro u hu
    obtain ⟨hv, _⟩ := hu
    simp [Visited, hasIdx, initialTarjanSt, List.lookup] at hv
  · intro x hx
    exact absurd hx (List.not_mem_nil x)
  · intro γ hγ
    exact absurd hγ (List.not_mem_nil γ)
  · exact List.nodup_nil
  · exact List.Pairwise.nil
  · intro C hC
    exact absurd hC (List.not_mem_nil C)
  · exact List.Pairwise.nil
  · intro x hx _
    obtain ⟨hv, _⟩ := hx
    simp [Visited, hasIdx, initialTarjanSt, List.lookup] at hv

/-- Driver-loop invariant: starting from a well-formed no-gray state with
empty stack, the driver keeps it so, visits every listed vertex, and only
extends the component list. -/
theorem tarjanRun_spec (g : DepGraph) :
    ∀ (vs : List String) (h : ∀ v ∈ vs, v ∈ gverts g) (s : TarjanSt),
      WF g s [] → s.stack = [] →
      WF g (tarjanRun g vs h s) [] ∧ (tarjanRun g vs h s).stack = [] ∧
      (∀ v ∈ vs, Visited (tarjanRun g vs h s) v) ∧
      StMono s (tarjanRun g vs h s) ∧
      (∃ newComps, (tarjanRun g vs h s).comps = s.comps ++ newComps) := by
  intro vs
  induction vs with
  | nil =>
    intro h s hwf hst
    refine ⟨hwf, hst, ?_, stMono_refl s, ⟨[], by rw [tarjanRun, List.append_nil]⟩⟩
    intro v hv
    exact absurd hv (List.not_mem_nil v)
  | cons v vs ih =>
    intro h s hwf hst
    rw [tarjanRun]
    split
    · rename_i hx
      obtain ⟨hwf', hst', hvis', hmono', hcomps'⟩ :=
        ih (fun w hw => h w (List.mem_cons_of_mem _ hw)) s hwf hst
      refine ⟨hwf', hst', ?_, hmono', hcomps'⟩
      intro w hw
      rcases List.mem_cons.mp hw with he | hm
      · exact hmono' w (he ▸ hx)
      · exact hvis' w hm
    · rename_i hx
      have hnv : hasIdx s v = false := by
        cases hc : hasIdx s v with
        | false => rfl
        | true => exact absurd hc hx
      have hpre : SCPre g s v [] :=
        ⟨hwf, hnv, fun x hxs => absurd hxs (by rw [hst]; exact List.not_mem_nil x)⟩
      have hpost := (tarjanSpec g (unvisitedCount (gverts g) s)).1 s v []
        (h v (List.mem_cons_self _ _)) hnv (le_refl _) hpre
      set s1 := (strongConnect g s v (h v (List.mem_cons_self _ _))
        (by revert hx; cases hasIdx s v <;> simp)).val with hs1
      have hst1 : s1.stack = [] := stack_empty_of_wf_nil g s1 hpost.wf
      obtain ⟨hwf', hst', hvis', hmono', hcomps'⟩ :=
        ih (fun w hw => h w (List.mem_cons_of_mem _ hw)) s1 hpost.wf hst1
      refine ⟨hwf', hst', ?_, stMono_trans hpost.mono hmono', ?_⟩
      · intro w hw
        rcases List.mem_cons.mp hw with he | hm
        · exact hmono' w (he ▸ hpost.visited_v)
        · exact hvis' w hm
      · obtain ⟨n1, hn1⟩ := hpost.comps_ext
        obtain ⟨n2, hn2⟩ := hcomps'
        exact ⟨n1 ++ n2, by rw [hn2, hn1, List.append_assoc]⟩

/-- Facts about the final Tarjan state: well-formed with no grays, empty
stack, every map key visited. -/
theorem fscc_facts (g : DepGraph) :
    WF g (findStronglyConnectedComponents g) [] ∧
    (findStronglyConnectedComponents g).stack = [] ∧
    (∀ v ∈ keys g, Visited (findStronglyConnectedComponents g) v) := by
  have h := tarjanRun_spec g (keys g) (keys_subset_gverts g) initialTarjanSt
    (wf_initial g) rfl
  exact ⟨h.1, h.2.1, h.2.2.1⟩

/-- Soundness of the recorded components: duplicate-free, more than one
member, pairwise mutually reachable, closed under mutual reachability. -/
theorem fscc_sound (g : DepGraph) :
    ∀ C ∈ (findStronglyConnectedComponents g).comps,
      C.Nodup ∧ 1 < C.length ∧ (∀ x ∈ C, ∀ y ∈ C, MutReach g x y) ∧
      (∀ x ∈ C, ∀ z, MutReach g x z → z ∈ C) := by
  intro C hC
  obtain ⟨hnd, hlen, _, hmr, hcl⟩ := (fscc_facts g).1.comps_ok C hC
  exact ⟨hnd, hlen, hmr, hcl⟩

/-- Each recorded component, as a set, is a strongly connected component. -/
theorem fscc_sound_scc (g : DepGraph) :
    ∀ C ∈ (findStronglyConnectedComponents g).comps, IsSCC g C.toFinset := by
  intro C hC
  obtain ⟨hnd, hlen, hmr, hcl⟩ := fscc_sound g C hC
  have hne : C ≠ [] := by
    intro he
    rw [he, List.length_nil] at hlen
    exact absurd hlen (by decide)
  refine ⟨?_, ?_, ?_⟩
  · obtain ⟨x, hx⟩ := List.exists_mem_of_ne_nil C hne
    exact ⟨x, List.mem_toFinset.mpr hx⟩
  · intro x hx y hy
    exact hmr x (List.mem_toFinset.mp hx) y (List.mem_toFinset.mp hy)
  · intro x hx z hz
    exact List.mem_toFinset.mpr (hcl x (List.mem_toFinset.mp hx) z hz)

/-- Each recorded component contains two distinct, mutually reachable
members. -/
theorem comp_two_distinct (g : DepGraph) (C : List String)
    (hC : C ∈ (findStronglyConnectedComponents g).comps) :
    ∃ x ∈ C, ∃ y ∈ C, x ≠ y ∧ MutReach g x y := by
  obtain ⟨hnd, hlen, hmr, _⟩ := fscc_sound g C hC
  cases C with
  | nil => simp at hlen
  | cons x t =>
    cases t with
    | nil => simp at hlen
    | cons y t' =>
      have hx : x ∈ x :: y :: t' := List.mem_cons_self _ _
      have hy : y ∈ x :: y :: t' := List.mem_cons_of_mem _ (List.mem_cons_self _ _)
      refine ⟨x, hx, y, hy, ?_, hmr x hx y hy⟩
      intro he
      rw [List.nodup_cons] at hnd
      exact hnd.1 (he ▸ List.mem_cons_self _ _)

/-- Completeness: every strongly connected component with more than one
member is recorded (as a list whose set of members is exactly it). -/
theorem fscc_complete (g : DepGraph) (S : Finset String) (hS : IsSCC g S)
    (hcard : 1 < S.card) :
    ∃ C ∈ (findStronglyConnectedComponents g).comps, C.toFinset = S := by
  obtain ⟨⟨x, hx⟩, hmr, hcl⟩ := hS
  obtain ⟨y, hy, hyx⟩ := Finset.exists_ne_of_one_lt_card hcard x
  have hrxy : Reach g x y := (hmr x hx y hy).1
  have hkey : x ∈ keys g := by
    rcases Relation.ReflTransGen.cases_head hrxy with he | ⟨z, hz, _⟩
    · exact absurd he.symm hyx
    · exact mem_keys_of_succ hz
  have hdone : Done (findStronglyConnectedComponents g) x :=
    ⟨(fscc_facts g).2.2 x hkey, by
      rw [(fscc_facts g).2.1]; exact List.not_mem_nil x⟩
  obtain ⟨C, hC, hxC⟩ := (fscc_facts g).1.done_in_comps x hdone
    ⟨y, hyx, hmr x hx y hy⟩
  obtain ⟨_, _, hmrC, hclC⟩ := fscc_sound g C hC
  refine ⟨C, hC, ?_⟩
  ext z
  rw [List.mem_toFinset]
  constructor
  · intro hzC
    exact hcl x hx z (hmrC x hxC z hzC)
  · intro hzS
    exact hclC x hxC z (hmr x hx z hzS)

/-- A pairwise-"incompatible" list holds exactly one element satisfying a
predicate once it holds one, when no two related elements can both
satisfy it. -/
theorem countP_eq_one_of_disjoint {α : Type} (p : α → Bool) :
    ∀ (l : List α) (R : α → α → Prop), l.Pairwise R →
      (∀ A B, p A = true → p B = true → R A B → False) →
      (∃ C ∈ l, p C = true) → l.countP p = 1 := by
  intro l
  induction l with
  | nil =>
    intro R _ _ hex
    obtain ⟨C, hC, _⟩ := hex
    exact absurd hC (List.not_mem_nil C)
  | cons a t ih =>
    intro R hpw hcontra hex
    rw [List.countP_cons]
    cases hpa : p a with
    | true =>
      have ht0 : t.countP p = 0 := by
        rw [List.countP_eq_zero]
        intro B hB hpB
        exact hcontra a B hpa hpB ((List.pairwise_cons.mp hpw).1 B hB)
      simp [ht0, hpa]
    | false =>
      obtain ⟨C, hC, hpC⟩ := hex
      have hCt : C ∈ t := by
        rcases List.mem_cons.mp hC with he | hm
        · rw [he, hpa] at hpC
          cases hpC
        · exact hm
      have := ih R (List.pairwise_cons.mp hpw).2 hcontra ⟨C, hCt, hpC⟩
      simp [hpa, this]

/-- C2: `findStronglyConnectedComponents` records, for every strongly
connected component with more than one member, exactly one component list
containing exactly its members (each once); every recorded list is such a
component; a graph without any multi-member SCC yields no components; and
`detect` emits one classified cycle per recorded component. -/
theorem tarjan_scc_spec (g : DepGraph) (projectPath : String) :
    (∀ C ∈ (findStronglyConnectedComponents g).comps,
        C.Nodup ∧ IsSCC g C.toFinset ∧ 1 < C.toFinset.card) ∧
    (∀ S : Finset String, IsSCC g S → 1 < S.card →
        ((findStronglyConnectedComponents g).comps.countP
          (fun C => decide (C.toFinset = S))) = 1) ∧
    ((∀ S : Finset String, IsSCC g S → S.card ≤ 1) →
        (findStronglyConnectedComponents g).comps = []) ∧
    detectCircularDependencies projectPath g =
      (findStronglyConnectedComponents g).comps.map
        (addCircularDependency projectPath) := by
  refine ⟨?_, ?_, ?_, rfl⟩
  · intro C hC
    obtain ⟨hnd, hlen, _, _⟩ := fscc_sound g C hC
    refine ⟨hnd, fscc_sound_scc g C hC, ?_⟩
    rw [List.toFinset_card_of_nodup hnd]
    exact hlen
  · intro S hS hcard
    obtain ⟨C0, hC0, hC0S⟩ := fscc_complete g S hS hcard
    refine countP_eq_one_of_disjoint _ _ (fun C D => ∀ x ∈ C, x ∉ D)
      (fscc_facts g).1.comps_disjoint ?_ ⟨C0, hC0, ?_⟩
    · intro A B hA hB hR
      rw [decide_eq_true_eq] at hA hB
      obtain ⟨s0, hs0⟩ := hS.1
      have hsA : s0 ∈ A := List.mem_toFinset.mp (hA ▸ hs0)
      have hsB : s0 ∈ B := List.mem_toFinset.mp (hB ▸ hs0)
      exact hR s0 hsA hsB
    · rw [decide_eq_true_eq]
      exact hC0S
  · intro hsmall
    rw [List.eq_nil_iff_forall_not_mem]
    intro C hC
    obtain ⟨hnd, hlen, _, _⟩ := fscc_sound g C hC
    have h1 := hsmall C.toFinset (fscc_sound_scc g C hC)
    rw [List.toFinset_card_of_nodup hnd] at h1
    omega

/-- The two-file mutual-import graph used as a concrete instance. -/
def demoGraph : DepGraph := [("a", ["b"]), ("b", ["a"])]

/-- Its unique strongly connected component. -/
def demoSCC : Finset String := {"a", "b"}

/-- Reachability stays inside a successor-closed vertex list. -/
theorem reach_mem_closed (g : DepGraph) (T : List String)
    (hcl : ∀ u ∈ T, ∀ w ∈ succs g u, w ∈ T) :
    ∀ u z, u ∈ T → Reach g u z → z ∈ T := by
  intro u z hu hr
  induction hr with
  | refl => exact hu
  | tail hxm hmz ih =>
    rename_i m zz
    exact hcl m ih zz hmz

/-- The set `{a, b}` is an SCC of the demo graph. -/
theorem isSCC_demo : IsSCC demoGraph demoSCC := by
  have hcl : ∀ u ∈ ["a", "b"], ∀ w ∈ succs demoGraph u, w ∈ ["a", "b"] := by
    decide
  have hab : Reach demoGraph "a" "b" :=
    Relation.ReflTransGen.single (show "b" ∈ succs demoGraph "a" by decide)
  have hba : Reach demoGraph "b" "a" :=
    Relation.ReflTransGen.single (show "a" ∈ succs demoGraph "b" by decide)
  have hmem : ∀ x, x ∈ demoSCC ↔ x = "a" ∨ x = "b" := by
    intro x
    simp [demoSCC]
  refine ⟨⟨"a", by decide⟩, ?_, ?_⟩
  · intro x hx y hy
    rcases (hmem x).mp hx with hxa | hxb <;> rcases (hmem y).mp hy with hya | hyb <;>
      subst_vars
    · exact ⟨Relation.ReflTransGen.refl, Relation.ReflTransGen.refl⟩
    · exact ⟨hab, hba⟩
    · exact ⟨hba, hab⟩
    · exact ⟨Relation.ReflTransGen.refl, Relation.ReflTransGen.refl⟩
  · intro x hx z hz
    have hxT : x ∈ ["a", "b"] := by
      rcases (hmem x).mp hx with h | h <;> simp [h]
    have hzT := reach_mem_closed demoGraph ["a", "b"] hcl x z hxT hz.1
    rcases List.mem_cons.mp hzT with h | h
    · exact (hmem z).mpr (Or.inl h)
    · exact (hmem z).mpr (Or.inr (List.mem_singleton.mp h))

/-- Concrete instance of the SCC specification on the mutual-import
graph: `{a, b}` is an SCC of more than one member and is recorded
exactly once. -/
theorem tarjan_scc_spec_witness :
    IsSCC demoGraph demoSCC ∧ 1 < demoSCC.card ∧
    ((findStronglyConnectedComponents demoGraph).comps.countP
      (fun C => decide (C.toFinset = demoSCC))) = 1 :=
  ⟨isSCC_demo, by decide,
    (tarjan_scc_spec demoGraph "").2.1 demoSCC isSCC_demo (by decide)⟩

/-- In the one-file self-import graph every reachability fact is
reflexive. -/
theorem selfloop_reach_eq :
    ∀ x y : String, Reach [("a", ["a"])] x y → x = y := by
  intro x y hr
  induction hr with
  | refl => rfl
  | tail hxm hmz ih =>
    rename_i m zz
    have hm : zz ∈ succs [("a", ["a"])] m := hmz
    by_cases h : m = "a"
    · subst h
      have hz : zz ∈ ["a"] := by
        rw [show succs [("a", ["a"])] "a" = ["a"] from by decide] at hm
        exact hm
      rw [ih, List.mem_singleton.mp hz]
    · rw [show succs [("a", ["a"])] m = (List.lookup m []).getD [] from by
          rw [succs, lookup_cons_ne _ _ h]] at hm
      exact absurd hm (List.not_mem_nil zz)

/-- C10: every recorded component holds at least two distinct files, and
a graph whose single file imports only itself yields no components. -/
theorem self_loop_not_reported :
    (∀ (g : DepGraph) (C : List String),
        C ∈ (findStronglyConnectedComponents g).comps →
        ∃ x ∈ C, ∃ y ∈ C, x ≠ y) ∧
    (findStronglyConnectedComponents [("a", ["a"])]).comps = [] := by
  constructor
  · intro g C hC
    obtain ⟨x, hx, y, hy, hxy, _⟩ := comp_two_distinct g C hC
    exact ⟨x, hx, y, hy, hxy⟩
  · rw [List.eq_nil_iff_forall_not_mem]
    intro C hC
    obtain ⟨x, hx, y, hy, hxy, hmr⟩ := comp_two_distinct _ C hC
    exact hxy (selfloop_reach_eq x y hmr.1)

/-- Concrete instance: the mutual-import graph records a component with
two distinct files, and the self-loop graph records none. -/
theorem self_loop_not_reported_witness :
    (∃ C ∈ (findStronglyConnectedComponents demoGraph).comps,
        ∃ x ∈ C, ∃ y ∈ C, x ≠ y) ∧
    (findStronglyConnectedComponents [("a", ["a"])]).comps = [] := by
  constructor
  · obtain ⟨C, hC, _⟩ := fscc_complete demoGraph demoSCC isSCC_demo (by decide)
    exact ⟨C, hC, self_loop_not_reported.1 demoGraph C hC⟩
  · exact self_loop_not_reported.2
